import Mathlib

/-!
Verification of the Cortex per-project memory engine
(repository `memory-context-claude-ai`) against its specification.

The development shallowly embeds the Python modules that the checked
claims touch:

* `src/memory_context_claude_ai/models.py` — event model, salience,
  content hashing (the `cortex.models` module imported by the SQL tier
  re-exports the same definitions; the claims cite this file).
* `src/memory_context_claude_ai/store.py` — file-tier event store.
* `src/cortex/sqlite_store.py`, `src/cortex/snapshot.py`,
  `src/cortex/db.py` — SQL-tier store and snapshot cache.
* `src/cortex/briefing.py` — budgeted briefing rendering.
* `src/cortex/search.py`, `src/cortex/hybrid_search.py` — keyword
  search and Reciprocal Rank Fusion.
* `src/cortex/hooks.py` — the four hook handlers.

Python strings are embedded as `List Char`, floats as `ℚ`, dicts as
association lists.  Behaviour of the Python standard library
(`hashlib.sha256`, `datetime.fromisoformat`, float `**`) is abstracted
into an explicit `PyLib` capability record threaded through the
definitions; a concrete computable instance is provided for evaluation.
Fallible operations return `Option`/`Except`.
-/

namespace Cortex

/-- Python `str`, embedded as its sequence of characters. -/
abbrev Str := List Char

/-- A JSON-compatible Python value, as produced by `json.loads` and
passed around in payload / metadata dictionaries. -/
inductive JsonVal where
  | jnull : JsonVal
  | jbool : Bool → JsonVal
  | jint : ℤ → JsonVal
  | jnum : ℚ → JsonVal
  | jstr : Str → JsonVal
  | jarr : List JsonVal → JsonVal
  | jobj : List (Str × JsonVal) → JsonVal

/-- A Python dictionary with string keys. -/
abbrev Dict := List (Str × JsonVal)

/-- `d.get(k)` on a Python dict: first binding of the key, if any. -/
def dictGet (d : Dict) (k : Str) : Option JsonVal :=
  (d.find? (fun p => p.1 = k)).map (fun p => p.2)

/-- `d.get(k, default)` on a Python dict. -/
def dictGetD (d : Dict) (k : Str) (dflt : JsonVal) : JsonVal :=
  (dictGet d k).getD dflt

/-- Python truthiness of a JSON value (`bool(v)`). -/
def jsonTruthy : JsonVal → Bool
  | .jnull => false
  | .jbool b => b
  | .jint n => n ≠ 0
  | .jnum q => q ≠ 0
  | .jstr s => s ≠ []
  | .jarr xs => !xs.isEmpty
  | .jobj fs => !fs.isEmpty

/-- Python truthiness of `d.get(k)` (missing key → `None` → falsy). -/
def jsonTruthyOpt : Option JsonVal → Bool
  | none => false
  | some v => jsonTruthy v

/-- `EventType` enum from `models.py` (eleven values). -/
inductive EventType where
  | decisionMade
  | approachRejected
  | planCreated
  | planStepCompleted
  | knowledgeAcquired
  | errorResolved
  | preferenceNoted
  | taskCompleted
  | fileModified
  | fileExplored
  | commandRun
deriving DecidableEq

/-- `EventType.value`: the string payload of each enum member. -/
def EventType.value : EventType → Str
  | .decisionMade => (r"decision_made").data
  | .approachRejected => (r"approach_rejected").data
  | .planCreated => (r"plan_created").data
  | .planStepCompleted => (r"plan_step_completed").data
  | .knowledgeAcquired => (r"knowledge_acquired").data
  | .errorResolved => (r"error_resolved").data
  | .preferenceNoted => (r"preference_noted").data
  | .taskCompleted => (r"task_completed").data
  | .fileModified => (r"file_modified").data
  | .fileExplored => (r"file_explored").data
  | .commandRun => (r"command_run").data

/-- `EventType(value)` enum lookup: `some` on a valid value string,
`none` models the `ValueError` raised on anything else. -/
def EventType.ofValue (s : Str) : Option EventType :=
  [EventType.decisionMade, .approachRejected, .planCreated, .planStepCompleted,
   .knowledgeAcquired, .errorResolved, .preferenceNoted, .taskCompleted,
   .fileModified, .fileExplored, .commandRun].find? (fun t => t.value = s)

/-- `DEFAULT_SALIENCE` table from `models.py`. -/
def DEFAULT_SALIENCE : EventType → ℚ
  | .decisionMade => 9/10
  | .approachRejected => 9/10
  | .planCreated => 85/100
  | .planStepCompleted => 7/10
  | .knowledgeAcquired => 7/10
  | .errorResolved => 75/100
  | .preferenceNoted => 8/10
  | .taskCompleted => 6/10
  | .fileModified => 4/10
  | .fileExplored => 3/10
  | .commandRun => 2/10

/-- Membership in `IMMORTAL_TYPES` from `models.py`. -/
def isImmortalType : EventType → Bool
  | .decisionMade => true
  | .approachRejected => true
  | _ => false

/-- `DEFAULT_DECAY_RATE` from `models.py`. -/
def DEFAULT_DECAY_RATE : ℚ := 995/1000

/-- The `Event` dataclass from `models.py`. -/
structure Event where
  id : Str
  session_id : Str
  project : Str
  git_branch : Str
  type : EventType
  content : Str
  metadata : List (Str × JsonVal)
  salience : ℚ
  confidence : ℚ
  created_at : Str
  accessed_at : Str
  access_count : ℤ
  immortal : Bool
  provenance : Str

/-- Behaviour of the Python standard library pieces that the embedded
code calls.  `sha16` is `hashlib.sha256(s.encode()).hexdigest()[:16]`;
`parseIso` is `datetime.fromisoformat` normalised to a UTC timestamp in
seconds (`none` models the `ValueError`/`TypeError` on a malformed
string); `powf` is float `**`, which on a base in `[0, 1]` and a
non-negative exponent yields a value in `[0, 1]` (true of the real
power function and of correctly rounded IEEE `pow`). -/
structure PyLib where
  sha16 : Str → Str
  parseIso : Str → Option ℚ
  powf : ℚ → ℚ → ℚ
  powf_nonneg : ∀ b e, 0 ≤ b → 0 ≤ powf b e
  powf_le_one : ∀ b e, 0 ≤ b → b ≤ 1 → 0 ≤ e → powf b e ≤ 1

/-- `content_hash(event)` from `models.py`:
`sha256(f"{type.value}:{content}:{session_id}")[:16]`. -/
def content_hash (lib : PyLib) (event : Event) : Str :=
  lib.sha16 (event.type.value ++ [':'] ++ event.content ++ [':'] ++ event.session_id)

/-- `create_event(...)` from `models.py`.  The nondeterministic inputs
(`uuid.uuid4()` and `datetime.now()`) are threaded as the explicit
arguments `newId` and `now`. -/
def create_event (event_type : EventType) (content : Str) (session_id : Str)
    (project : Str) (git_branch : Str) (metadata : List (Str × JsonVal))
    (confidence : ℚ) (provenance : Str) (newId : Str) (now : Str) : Event :=
  { id := newId
    session_id := session_id
    project := project
    git_branch := git_branch
    type := event_type
    content := content
    metadata := metadata
    salience := DEFAULT_SALIENCE event_type
    confidence := confidence
    created_at := now
    accessed_at := now
    access_count := 0
    immortal := isImmortalType event_type
    provenance := provenance }

/-- `effective_salience(event, now)` from `models.py`.  `now` is the
UTC timestamp in seconds; the timezone normalisation of the parsed
`accessed_at` is folded into `lib.parseIso`. -/
def effective_salience (lib : PyLib) (event : Event) (now : ℚ) : ℚ :=
  if event.immortal then event.salience
  else if event.accessed_at = [] then event.salience
  else
    match lib.parseIso event.accessed_at with
    | none => event.salience
    | some lastAccessed =>
        event.salience * lib.powf DEFAULT_DECAY_RATE (max 0 ((now - lastAccessed) / 3600))

/-- Projection of a dynamic value to a string field. -/
def asStr : JsonVal → Option Str
  | .jstr s => some s
  | _ => none

/-- Projection of a dynamic value to a dict field. -/
def asObj : JsonVal → Option (List (Str × JsonVal))
  | .jobj fs => some fs
  | _ => none

/-- Projection of a dynamic value to a float field (a JSON integer is
also a valid Python number). -/
def asNum : JsonVal → Option ℚ
  | .jnum q => some q
  | .jint n => some (n : ℚ)
  | _ => none

/-- Projection of a dynamic value to an int field. -/
def asInt : JsonVal → Option ℤ
  | .jint n => some n
  | _ => none

/-- Projection of a dynamic value to a bool field. -/
def asBool : JsonVal → Option Bool
  | .jbool b => some b
  | _ => none

/-- `data.get(key, default)` followed by use at a typed field position.
Python is unityped; a present value of an unexpected shape has no
representation in the typed field and is modelled as a failure. -/
def getFieldD {α : Type} (data : Dict) (key : Str) (dflt : α)
    (proj : JsonVal → Option α) : Option α :=
  match dictGet data key with
  | none => some dflt
  | some v => proj v

/-- `Event.to_dict` from `models.py`. -/
def Event.to_dict (e : Event) : Dict :=
  [((r"id").data, .jstr e.id),
   ((r"session_id").data, .jstr e.session_id),
   ((r"project").data, .jstr e.project),
   ((r"git_branch").data, .jstr e.git_branch),
   ((r"type").data, .jstr e.type.value),
   ((r"content").data, .jstr e.content),
   ((r"metadata").data, .jobj e.metadata),
   ((r"salience").data, .jnum e.salience),
   ((r"confidence").data, .jnum e.confidence),
   ((r"created_at").data, .jstr e.created_at),
   ((r"accessed_at").data, .jstr e.accessed_at),
   ((r"access_count").data, .jint e.access_count),
   ((r"immortal").data, .jbool e.immortal),
   ((r"provenance").data, .jstr e.provenance)]

/-- `Event.from_dict` from `models.py`.  The fresh UUID used when the
`id` key is absent is threaded as `newId`; `none` models the
`ValueError` raised by `EventType(data["type"])` on an invalid type
value (and, in this typed embedding, a present field of the wrong
dynamic shape). -/
def Event.from_dict (newId : Str) (data : Dict) : Option Event := do
  let id ← getFieldD data (r"id").data newId asStr
  let session_id ← getFieldD data (r"session_id").data [] asStr
  let project ← getFieldD data (r"project").data [] asStr
  let git_branch ← getFieldD data (r"git_branch").data [] asStr
  let type ← match dictGet data (r"type").data with
    | none => some EventType.knowledgeAcquired
    | some v => do EventType.ofValue (← asStr v)
  let content ← getFieldD data (r"content").data [] asStr
  let metadata ← getFieldD data (r"metadata").data [] asObj
  let salience ← getFieldD data (r"salience").data (1/2) asNum
  let confidence ← getFieldD data (r"confidence").data 1 asNum
  let created_at ← getFieldD data (r"created_at").data [] asStr
  let accessed_at ← getFieldD data (r"accessed_at").data [] asStr
  let access_count ← getFieldD data (r"access_count").data 0 asInt
  let immortal ← getFieldD data (r"immortal").data false asBool
  let provenance ← getFieldD data (r"provenance").data [] asStr
  pure
    { id := id
      session_id := session_id
      project := project
      git_branch := git_branch
      type := type
      content := content
      metadata := metadata
      salience := salience
      confidence := confidence
      created_at := created_at
      accessed_at := accessed_at
      access_count := access_count
      immortal := immortal
      provenance := provenance }

/-- The enum value string determines the enum member. -/
theorem EventType.ofValue_value (t : EventType) : EventType.ofValue t.value = some t := by
  cases t <;> rfl

/-- Python `<=` on strings: lexicographic comparison by code point. -/
def strLe : Str → Str → Bool
  | [], _ => true
  | _ :: _, [] => false
  | a :: as, b :: bs => if a < b then true else if b < a then false else strLe as bs

/-- Python `sorted(xs, key=key)` (stable ascending) for a string key. -/
def sortByStrAsc {α : Type} (key : α → Str) (l : List α) : List α :=
  List.insertionSort (fun a b => strLe (key a) (key b) = true) l

/-- Python `sorted(xs, key=key, reverse=True)` (stable descending) for
a string key. -/
def sortByStrDesc {α : Type} (key : α → Str) (l : List α) : List α :=
  List.insertionSort (fun a b => strLe (key b) (key a) = true) l

/-- Python `xs.sort(key=key, reverse=True)` (stable descending) for a
numeric key. -/
def sortByRatDesc {α : Type} (key : α → ℚ) (l : List α) : List α :=
  List.insertionSort (fun a b => key b ≤ key a) l

/-- The dedup loop shared by both `append_many` implementations
(`store.py` lines 62–67, `sqlite_store.py` lines 87–92): keep each
incoming event whose content hash is not in the seen set, adding its
hash to the set.  The Python `set` is modelled by a list used only for
membership. -/
def dedupNew (lib : PyLib) : List Event → List Str → List Event
  | [], _ => []
  | e :: rest, seen =>
    if content_hash lib e ∈ seen then dedupNew lib rest seen
    else e :: dedupNew lib rest (content_hash lib e :: seen)

/-- `EventStore.append_many` from `store.py` (tier 0).  The store state
is the decoded `events.json` array. -/
def EventStore.append_many (lib : PyLib) (store : List Event) (events : List Event) :
    List Event :=
  if events.isEmpty then store
  else store ++ dedupNew lib events (store.map (content_hash lib))

/-- `EventStore.load_all` from `store.py`: the decoded array itself
(by the proved `from_dict`/`to_dict` round-trip). -/
def EventStore.load_all (store : List Event) : List Event := store

/-- A row of the `snapshots` table (`Snapshot` dataclass in
`snapshot.py`). -/
structure Snapshot where
  id : ℤ
  git_branch : Str
  briefing_markdown : Str
  event_ids : List Str
  last_event_id : Str
  created_at : Str
  expires_at : Str

/-- SQL-tier store state: the `events` table in insertion (rowid)
order and the `snapshots` table. -/
structure SqlState where
  events : List Event
  snapshots : List Snapshot

/-- `SQLiteEventStore.append_many` from `sqlite_store.py` (lines
72–98): load existing content hashes, filter the batch against them,
insert the remainder, commit.  No other table is touched. -/
def SQLiteEventStore.append_many (lib : PyLib) (st : SqlState) (events : List Event) :
    SqlState :=
  if events.isEmpty then st
  else { st with events := st.events ++ dedupNew lib events (st.events.map (content_hash lib)) }

/-- `SQLiteEventStore.load_all`: `SELECT * FROM events ORDER BY
created_at`. -/
def SQLiteEventStore.load_all (st : SqlState) : List Event :=
  sortByStrAsc (fun e => e.created_at) st.events

/-- `invalidate_snapshots(conn, branch)` from `snapshot.py`: with a
branch, delete the rows for that branch and for the empty branch; with
`none`, delete all rows. -/
def invalidate_snapshots (st : SqlState) : Option Str → SqlState
  | some b => { st with snapshots := st.snapshots.filter (fun s => ¬(s.git_branch = b ∨ s.git_branch = [])) }
  | none => { st with snapshots := [] }

/-- `get_valid_snapshot(conn, branch)` from `snapshot.py`: the newest
non-expired row for the branch.  `now` is the current time as an ISO
string, compared as in SQL (`expires_at > now`, string comparison). -/
def get_valid_snapshot (st : SqlState) (branch : Str) (now : Str) : Option Snapshot :=
  (sortByStrDesc (fun s => s.created_at)
    (st.snapshots.filter (fun s => s.git_branch = branch ∧ strLe s.expires_at now = false))).head?

/-- The dedup loop emits pairwise-distinct hashes, none already seen. -/
theorem dedupNew_hashes (lib : PyLib) :
    ∀ (evs : List Event) (seen : List Str),
      ((dedupNew lib evs seen).map (content_hash lib)).Nodup ∧
        ∀ h ∈ (dedupNew lib evs seen).map (content_hash lib), h ∉ seen := by
  intro evs
  induction evs with
  | nil => intro seen; simp [dedupNew]
  | cons e rest ih =>
    intro seen
    by_cases hmem : content_hash lib e ∈ seen
    · simpa [dedupNew, hmem] using ih seen
    · obtain ⟨hnd, hdisj⟩ := ih (content_hash lib e :: seen)
      constructor
      · simp only [dedupNew]
        rw [if_neg hmem]
        simp only [List.map_cons, List.nodup_cons]
        exact ⟨fun hc => (hdisj _ hc) (List.mem_cons_self _ _), hnd⟩
      · simp only [dedupNew]
        rw [if_neg hmem]
        simp only [List.map_cons, List.mem_cons]
        rintro h (rfl | hh)
        · exact hmem
        · exact fun hs => (hdisj _ hh) (List.mem_cons_of_mem _ hs)

/-- Every incoming event's hash is either already seen or emitted. -/
theorem mem_hash_dedupNew (lib : PyLib) :
    ∀ (evs : List Event) (seen : List Str), ∀ e ∈ evs,
      content_hash lib e ∈ seen ∨
        content_hash lib e ∈ (dedupNew lib evs seen).map (content_hash lib) := by
  intro evs
  induction evs with
  | nil => simp
  | cons a rest ih =>
    intro seen e he
    rcases List.mem_cons.mp he with rfl | hrest
    · by_cases hmem : content_hash lib e ∈ seen
      · exact Or.inl hmem
      · right
        simp only [dedupNew]
        rw [if_neg hmem]
        simp
    · by_cases hmem : content_hash lib a ∈ seen
      · rcases ih seen e hrest with hin | hin
        · exact Or.inl hin
        · right
          simp only [dedupNew]
          rw [if_pos hmem]
          exact hin
      · rcases ih (content_hash lib a :: seen) e hrest with hin | hin
        · rcases List.mem_cons.mp hin with heq | hseen
          · right
            simp only [dedupNew]
            rw [if_neg hmem]
            simp [heq]
          · exact Or.inl hseen
        · right
          simp only [dedupNew]
          rw [if_neg hmem]
          simp only [List.map_cons, List.mem_cons]
          exact Or.inr hin

/-- If every incoming hash is already seen, nothing is inserted. -/
theorem dedupNew_eq_nil (lib : PyLib) :
    ∀ (evs : List Event) (seen : List Str),
      (∀ e ∈ evs, content_hash lib e ∈ seen) → dedupNew lib evs seen = [] := by
  intro evs
  induction evs with
  | nil => intro seen _; rfl
  | cons a rest ih =>
    intro seen hall
    simp only [dedupNew]
    rw [if_pos (hall a (List.mem_cons_self _ _))]
    exact ih seen (fun e he => hall e (List.mem_cons_of_mem _ he))

/-- Hash-distinctness of a generic `append_many` result. -/
theorem append_many_core_nodup (lib : PyLib) (store events : List Event)
    (h : (store.map (content_hash lib)).Nodup) :
    ((store ++ dedupNew lib events (store.map (content_hash lib))).map
      (content_hash lib)).Nodup := by
  obtain ⟨hnd, hdisj⟩ := dedupNew_hashes lib events (store.map (content_hash lib))
  rw [List.map_append, List.nodup_append]
  exact ⟨h, hnd, fun x hx hx2 => (hdisj x hx2) hx⟩

/-- Re-appending the same batch inserts nothing. -/
theorem append_many_core_idem (lib : PyLib) (store events : List Event) :
    dedupNew lib events
      ((store ++ dedupNew lib events (store.map (content_hash lib))).map
        (content_hash lib)) = [] := by
  apply dedupNew_eq_nil
  intro e he
  rw [List.map_append, List.mem_append]
  rcases mem_hash_dedupNew lib events (store.map (content_hash lib)) e he with hin | hin
  · exact Or.inl hin
  · exact Or.inr hin

/-- A concrete, computable standard-library model used to evaluate the
embedded code on closed inputs (any `PyLib` works for the theorems;
witnesses need one that computes). -/
def libModel : PyLib where
  sha16 := fun s => s
  parseIso := fun s => if s.length ≤ 1 then none else some ((s.length : ℚ) * 3600)
  powf := fun b e => if 0 ≤ e then b ^ e.num.toNat else 1
  powf_nonneg := by
    intro b e hb
    dsimp only
    split
    · exact pow_nonneg hb _
    · exact zero_le_one
  powf_le_one := by
    intro b e hb hb1 he
    dsimp only
    rw [if_pos he]
    exact pow_le_one₀ hb hb1

/-- C1 (code evidence): `SQLiteEventStore.append_many` commits the new
events without ever touching the `snapshots` table, so any previously
valid snapshot for the batch's branch, or for the empty-branch key, is
still served afterwards.  (`invalidate_snapshots` has no caller in the
store, and the schema in `db.py` installs no trigger on `snapshots`.) -/
theorem sqlite_append_many_preserves_snapshots (lib : PyLib) (st : SqlState)
    (events : List Event) :
    (SQLiteEventStore.append_many lib st events).snapshots = st.snapshots ∧
      ∀ branch now, get_valid_snapshot (SQLiteEventStore.append_many lib st events) branch now
        = get_valid_snapshot st branch now := by
  have h : (SQLiteEventStore.append_many lib st events).snapshots = st.snapshots := by
    simp only [SQLiteEventStore.append_many]
    by_cases hevs : events.isEmpty
    · rw [if_pos hevs]
    · rw [if_neg hevs]
  exact ⟨h, fun branch now => by simp only [get_valid_snapshot, h]⟩

/-- C4: provided the store's current contents are hash-distinct (the
documented store invariant — every event is "appended exactly once,
deduplicated by content hash"), after `append_many(events)` the store
holds exactly one event per distinct content hash, and re-appending the
same batch leaves the store — in particular its count — unchanged, on
the file tier and on the SQL tier alike. -/
theorem append_many_one_event_per_hash (lib : PyLib) (store : List Event)
    (st : SqlState) (events : List Event)
    (hstore : (store.map (content_hash lib)).Nodup)
    (hsql : (st.events.map (content_hash lib)).Nodup) :
    ((EventStore.append_many lib store events).map (content_hash lib)).Nodup ∧
      EventStore.append_many lib (EventStore.append_many lib store events) events
        = EventStore.append_many lib store events ∧
      ((SQLiteEventStore.append_many lib st events).events.map (content_hash lib)).Nodup ∧
      (SQLiteEventStore.append_many lib (SQLiteEventStore.append_many lib st events)
          events).events.length
        = (SQLiteEventStore.append_many lib st events).events.length := by
  refine ⟨?_, ?_, ?_, ?_⟩
  · simp only [EventStore.append_many]
    by_cases hevs : events.isEmpty
    · rw [if_pos hevs]; exact hstore
    · rw [if_neg hevs]; exact append_many_core_nodup lib store events hstore
  · by_cases hevs : events.isEmpty
    · simp [EventStore.append_many, hevs]
    · have hs : EventStore.append_many lib store events
          = store ++ dedupNew lib events (store.map (content_hash lib)) := by
        simp only [EventStore.append_many]
        rw [if_neg hevs]
      rw [hs]
      simp only [EventStore.append_many]
      rw [if_neg hevs, append_many_core_idem, List.append_nil]
  · simp only [SQLiteEventStore.append_many]
    by_cases hevs : events.isEmpty
    · rw [if_pos hevs]; exact hsql
    · rw [if_neg hevs]; exact append_many_core_nodup lib st.events events hsql
  · by_cases hevs : events.isEmpty
    · simp [SQLiteEventStore.append_many, hevs]
    · simp only [SQLiteEventStore.append_many, hevs, Bool.false_eq_true, if_false,
        append_many_core_idem, List.append_nil]

/-- A sample immortal event (shape of extractor output). -/
def evDecision : Event where
  id := (r"ev-1").data
  session_id := (r"s1").data
  project := []
  git_branch := (r"main").data
  type := .decisionMade
  content := (r"Use SQLite for storage").data
  metadata := []
  salience := 9/10
  confidence := 1
  created_at := (r"2025-01-01T10:00:00+00:00").data
  accessed_at := (r"2025-01-01T10:00:00+00:00").data
  access_count := 0
  immortal := true
  provenance := []

/-- A sample mortal event. -/
def evKnowledge : Event where
  id := (r"ev-2").data
  session_id := (r"s1").data
  project := []
  git_branch := (r"main").data
  type := .knowledgeAcquired
  content := (r"SQLite has FTS5").data
  metadata := []
  salience := 7/10
  confidence := 1
  created_at := (r"2025-01-01T11:00:00+00:00").data
  accessed_at := (r"2025-01-01T11:00:00+00:00").data
  access_count := 0
  immortal := false
  provenance := []

/-- Witness for the C4 theorem at a concrete store and batch. -/
theorem append_many_one_event_per_hash_witness :
    (([evDecision].map (content_hash libModel)).Nodup ∧
        ((⟨[evDecision], []⟩ : SqlState).events.map (content_hash libModel)).Nodup) ∧
      ((EventStore.append_many libModel [evDecision] [evKnowledge, evKnowledge]).map
        (content_hash libModel)).Nodup :=
  ⟨⟨by decide, by decide⟩,
    (append_many_one_event_per_hash libModel [evDecision] ⟨[evDecision], []⟩
      [evKnowledge, evKnowledge] (by decide) (by decide)).1⟩

/-- C2 counterexample: at a concrete call with empty content,
`create_event` does not fail — it returns the normally constructed
event (empty content, default salience, factory-set fields).  There is
no `InvalidEvent` error anywhere in the factory. -/
theorem create_event_empty_content_returns_event :
    create_event EventType.knowledgeAcquired [] [] [] [] [] 1 []
        (r"id-1").data (r"2025-01-02T00:00:00+00:00").data
      = { id := (r"id-1").data
          session_id := []
          project := []
          git_branch := []
          type := .knowledgeAcquired
          content := []
          metadata := []
          salience := 7/10
          confidence := 1
          created_at := (r"2025-01-02T00:00:00+00:00").data
          accessed_at := (r"2025-01-02T00:00:00+00:00").data
          access_count := 0
          immortal := false
          provenance := [] } := rfl

/-- C2 (amended): `create_event` performs no content validation — for
every event type and arguments, a call with empty content returns a
normally constructed event: empty content, default salience for the
type, immortality from the immortal set, fresh id and timestamps, zero
access count. -/
theorem create_event_accepts_empty_content (t : EventType) (sid proj br : Str)
    (md : List (Str × JsonVal)) (conf : ℚ) (prov newId now : Str) :
    (create_event t [] sid proj br md conf prov newId now).content = [] ∧
      (create_event t [] sid proj br md conf prov newId now).salience = DEFAULT_SALIENCE t ∧
      (create_event t [] sid proj br md conf prov newId now).immortal = isImmortalType t ∧
      (create_event t [] sid proj br md conf prov newId now).id = newId ∧
      (create_event t [] sid proj br md conf prov newId now).created_at = now ∧
      (create_event t [] sid proj br md conf prov newId now).accessed_at = now ∧
      (create_event t [] sid proj br md conf prov newId now).access_count = 0 :=
  ⟨rfl, rfl, rfl, rfl, rfl, rfl, rfl⟩

/-- C7: for every event with the documented salience invariant
(`salience ∈ [0,1]`; only its lower half is needed) and every time,
decayed salience never exceeds raw salience; immortal events, an empty
`accessed_at`, and an unparseable `accessed_at` give exactly the raw
salience. -/
theorem effective_salience_le_salience (lib : PyLib) (e : Event) (now : ℚ)
    (h : 0 ≤ e.salience) :
    effective_salience lib e now ≤ e.salience ∧
      (e.immortal = true → effective_salience lib e now = e.salience) ∧
      (e.accessed_at = [] → effective_salience lib e now = e.salience) ∧
      (lib.parseIso e.accessed_at = none → effective_salience lib e now = e.salience) := by
  by_cases himm : e.immortal
  · have heq : effective_salience lib e now = e.salience := by
      simp [effective_salience, himm]
    exact ⟨le_of_eq heq, fun _ => heq, fun _ => heq, fun _ => heq⟩
  · by_cases hacc : e.accessed_at = []
    · have heq : effective_salience lib e now = e.salience := by
        simp [effective_salience, himm, hacc]
      exact ⟨le_of_eq heq, fun _ => heq, fun _ => heq, fun _ => heq⟩
    · cases hp : lib.parseIso e.accessed_at with
      | none =>
        have heq : effective_salience lib e now = e.salience := by
          simp [effective_salience, himm, hacc, hp]
        exact ⟨le_of_eq heq, fun _ => heq, fun _ => heq, fun _ => heq⟩
      | some lastAccessed =>
        have hval : effective_salience lib e now
            = e.salience * lib.powf DEFAULT_DECAY_RATE (max 0 ((now - lastAccessed) / 3600)) := by
          simp [effective_salience, himm, hacc, hp]
        refine ⟨?_, ?_, ?_, ?_⟩
        · rw [hval]
          apply mul_le_of_le_one_right h
          apply lib.powf_le_one
          · norm_num [DEFAULT_DECAY_RATE]
          · norm_num [DEFAULT_DECAY_RATE]
          · exact le_max_left 0 _
        · intro hc; exact absurd hc himm
        · intro hc; exact absurd hc hacc
        · intro hc; exact absurd hc (by simp)

/-- A sample event with unit salience (used for closed evaluation). -/
def evPlan : Event where
  id := (r"ev-3").data
  session_id := (r"s1").data
  project := []
  git_branch := (r"main").data
  type := .planCreated
  content := (r"1. do the thing").data
  metadata := []
  salience := 1
  confidence := 1
  created_at := (r"2025-01-01T12:00:00+00:00").data
  accessed_at := (r"2025-01-01T12:00:00+00:00").data
  access_count := 0
  immortal := false
  provenance := []

/-- Witness for the C7 theorem on a concrete event and time. -/
theorem effective_salience_le_salience_witness :
    (0 ≤ evPlan.salience) ∧
      effective_salience libModel evPlan 500000 ≤ evPlan.salience :=
  ⟨zero_le_one, (effective_salience_le_salience libModel evPlan 500000 zero_le_one).1⟩

/-- C10: `Event.from_dict(e.to_dict())` recovers every field of `e` —
the dictionary serialization round-trips through deserialization,
including the type enum, metadata mapping, timestamps, access count,
immortal flag, and provenance (`newId` is the unused fresh UUID for an
absent `id` key). -/
theorem from_dict_to_dict_roundtrip (newId : Str) (e : Event) :
    Event.from_dict newId e.to_dict = some e := by
  cases e
  simp [Event.from_dict, Event.to_dict, getFieldD, dictGet, List.find?,
    asStr, asObj, asNum, asInt, asBool, EventType.ofValue_value]

/-- Result of `load_for_briefing`: the dict with keys `immortal`,
`active_plan`, `recent`. -/
structure BriefingBuckets where
  immortal : List Event
  active_plan : List Event
  recent : List Event

/-- The `immortal` bucket (`store.py` lines 115–119 /
`sqlite_store.py` lines 226–230): immortal events sorted by
`created_at` descending. -/
def coreImmortal (evs : List Event) : List Event :=
  sortByStrDesc (fun e => e.created_at) (evs.filter (fun e => e.immortal))

/-- The `plan_events` local: `PLAN_CREATED` events sorted by
`created_at` descending. -/
def corePlanEvents (evs : List Event) : List Event :=
  sortByStrDesc (fun e => e.created_at)
    (evs.filter (fun e => e.type = EventType.planCreated))

/-- The `active_plan` bucket: the most recent plan followed by the
`PLAN_STEP_COMPLETED` events created at or after it, ascending. -/
def coreActivePlan (evs : List Event) : List Event :=
  match corePlanEvents evs with
  | [] => []
  | latest_plan :: _ =>
      latest_plan ::
        sortByStrAsc (fun e => e.created_at)
          (evs.filter (fun e =>
            e.type = EventType.planStepCompleted ∧
              strLe latest_plan.created_at e.created_at = true))

/-- The `included_ids` set (ids of the first two buckets). -/
def coreIncludedIds (evs : List Event) : List Str :=
  (coreImmortal evs).map (fun e => e.id) ++ (coreActivePlan evs).map (fun e => e.id)

/-- The `recent` bucket: the other events, by effective salience
descending, top 30. -/
def coreRecent (lib : PyLib) (now : ℚ) (evs : List Event) : List Event :=
  (sortByRatDesc (fun e => effective_salience lib e now)
    (evs.filter (fun e => e.id ∉ coreIncludedIds evs))).take 30

/-- The bucket computation shared verbatim by `store.py` lines
107–148 and `sqlite_store.py` lines 218–262, applied after the
respective branch filter. -/
def briefingCore (lib : PyLib) (now : ℚ) (evs : List Event) : BriefingBuckets :=
  ⟨coreImmortal evs, coreActivePlan evs, coreRecent lib now evs⟩

/-- `EventStore.load_for_briefing` from `store.py`: a truthy branch
filter keeps events on that branch or with an empty branch. -/
def EventStore.load_for_briefing (lib : PyLib) (now : ℚ) (store : List Event) :
    Option Str → BriefingBuckets
  | some b =>
      if b.isEmpty then briefingCore lib now store
      else briefingCore lib now
        (store.filter (fun e => e.git_branch = b ∨ e.git_branch = []))
  | none => briefingCore lib now store

/-- `SQLiteEventStore.load_for_briefing` from `sqlite_store.py`: same
computation over the rows matching
`git_branch = ? OR git_branch = '' OR git_branch IS NULL` (the model
has no NULL branches). -/
def SQLiteEventStore.load_for_briefing (lib : PyLib) (now : ℚ) (st : SqlState) :
    Option Str → BriefingBuckets
  | some b =>
      if b.isEmpty then briefingCore lib now st.events
      else briefingCore lib now
        (st.events.filter (fun e => e.git_branch = b ∨ e.git_branch = []))
  | none => briefingCore lib now st.events

/-- The construction invariant `immortal = (type ∈ immortal set)`
restricted to what the briefing claim needs: no stored immortal event
has a plan type. -/
def ImmortalTypeInv (events : List Event) : Prop :=
  ∀ e ∈ events, e.immortal = true →
    e.type ≠ EventType.planCreated ∧ e.type ≠ EventType.planStepCompleted

instance (events : List Event) : Decidable (ImmortalTypeInv events) := by
  unfold ImmortalTypeInv
  infer_instance

/-- Pairwise disjointness of the three buckets. -/
def DisjointBuckets (b : BriefingBuckets) : Prop :=
  b.immortal.Disjoint b.active_plan ∧ b.immortal.Disjoint b.recent ∧
    b.active_plan.Disjoint b.recent

/-- The union of the three buckets lies inside `all`. -/
def BucketsUnionSub (b : BriefingBuckets) (all : List Event) : Prop :=
  ∀ e, e ∈ b.immortal ∨ e ∈ b.active_plan ∨ e ∈ b.recent → e ∈ all

/-- Membership in the `immortal` bucket. -/
theorem mem_coreImmortal {evs : List Event} {e : Event} :
    e ∈ coreImmortal evs ↔ e ∈ evs ∧ e.immortal = true := by
  simp [coreImmortal, sortByStrDesc, List.mem_filter]

/-- Membership in the `active_plan` bucket forces a plan type. -/
theorem mem_coreActivePlan {evs : List Event} {e : Event} :
    e ∈ coreActivePlan evs →
      e ∈ evs ∧ (e.type = EventType.planCreated ∨ e.type = EventType.planStepCompleted) := by
  unfold coreActivePlan
  cases hpe : corePlanEvents evs with
  | nil => simp
  | cons latest_plan rest =>
    intro hmem
    rcases List.mem_cons.mp hmem with rfl | hsteps
    · have hlp : e ∈ corePlanEvents evs := by
        rw [hpe]; exact List.mem_cons_self _ _
      have := by
        simpa [corePlanEvents, sortByStrDesc, List.mem_filter] using hlp
      exact ⟨this.1, Or.inl this.2⟩
    · have := by
        simpa [sortByStrAsc, List.mem_filter] using hsteps
      exact ⟨this.1, Or.inr this.2.1⟩

/-- Membership in the `recent` bucket: the event's id was not already
included. -/
theorem mem_coreRecent {lib : PyLib} {now : ℚ} {evs : List Event} {e : Event} :
    e ∈ coreRecent lib now evs → e ∈ evs ∧ e.id ∉ coreIncludedIds evs := by
  intro h
  have hmem := List.mem_of_mem_take h
  simpa [sortByRatDesc, List.mem_filter] using hmem

/-- The buckets are pairwise disjoint, contained in the input, and
`recent` holds at most 30 events. -/
theorem briefingCore_ok (lib : PyLib) (now : ℚ) (evs all : List Event)
    (hsub : ∀ e ∈ evs, e ∈ all) (hinv : ImmortalTypeInv evs) :
    DisjointBuckets (briefingCore lib now evs) ∧
      BucketsUnionSub (briefingCore lib now evs) all ∧
      (briefingCore lib now evs).recent.length ≤ 30 := by
  refine ⟨⟨?_, ?_, ?_⟩, ?_, ?_⟩
  · intro e h1 h2
    obtain ⟨hev, himm⟩ := mem_coreImmortal.mp h1
    obtain ⟨_, hty⟩ := mem_coreActivePlan h2
    obtain ⟨hne1, hne2⟩ := hinv e hev himm
    rcases hty with h | h
    · exact hne1 h
    · exact hne2 h
  · intro e h1 h2
    obtain ⟨hev, himm⟩ := mem_coreImmortal.mp h1
    obtain ⟨_, hnotin⟩ := mem_coreRecent h2
    exact hnotin (by
      apply List.mem_append_left
      exact List.mem_map_of_mem (fun e => e.id) h1)
  · intro e h1 h2
    obtain ⟨_, hnotin⟩ := mem_coreRecent h2
    exact hnotin (by
      apply List.mem_append_right
      exact List.mem_map_of_mem (fun e => e.id) h1)
  · intro e he
    rcases he with h | h | h
    · exact hsub e (mem_coreImmortal.mp h).1
    · exact hsub e (mem_coreActivePlan h).1
    · exact hsub e (mem_coreRecent h).1
  · simp [briefingCore, coreRecent]

/-- C3: for every store state satisfying the construction invariant
(`immortal = (type ∈ immortal set)`; only "no immortal event has a
plan type" is needed) and every optional branch filter,
`load_for_briefing` returns three pairwise-disjoint buckets whose
union is contained in `load_all()`, with `recent` holding at most 30
events — on the file tier and the SQL tier alike. -/
theorem load_for_briefing_buckets (lib : PyLib) (now : ℚ) (store : List Event)
    (st : SqlState) (branch : Option Str)
    (hfile : ImmortalTypeInv store) (hsql : ImmortalTypeInv st.events) :
    (DisjointBuckets (EventStore.load_for_briefing lib now store branch) ∧
        BucketsUnionSub (EventStore.load_for_briefing lib now store branch)
          (EventStore.load_all store) ∧
        (EventStore.load_for_briefing lib now store branch).recent.length ≤ 30) ∧
      (DisjointBuckets (SQLiteEventStore.load_for_briefing lib now st branch) ∧
        BucketsUnionSub (SQLiteEventStore.load_for_briefing lib now st branch)
          (SQLiteEventStore.load_all st) ∧
        (SQLiteEventStore.load_for_briefing lib now st branch).recent.length ≤ 30) := by
  have hsql_all : ∀ e ∈ st.events, e ∈ SQLiteEventStore.load_all st := by
    intro e he
    simpa [SQLiteEventStore.load_all, sortByStrAsc] using he
  constructor
  · cases branch with
    | none => exact briefingCore_ok lib now store store (fun e he => he) hfile
    | some b =>
      by_cases hb : b.isEmpty
      · simpa [EventStore.load_for_briefing, hb] using
          briefingCore_ok lib now store store (fun e he => he) hfile
      · have hsubf : ∀ e ∈ store.filter (fun e => e.git_branch = b ∨ e.git_branch = []),
            e ∈ store := fun e he => (List.mem_filter.mp he).1
        have hinvf : ImmortalTypeInv
            (store.filter (fun e => e.git_branch = b ∨ e.git_branch = [])) :=
          fun e he => hfile e (hsubf e he)
        simpa [EventStore.load_for_briefing, hb] using
          briefingCore_ok lib now _ store hsubf hinvf
  · cases branch with
    | none => exact briefingCore_ok lib now st.events _ hsql_all hsql
    | some b =>
      by_cases hb : b.isEmpty
      · simpa [SQLiteEventStore.load_for_briefing, hb] using
          briefingCore_ok lib now st.events _ hsql_all hsql
      · have hsubf : ∀ e ∈ st.events.filter (fun e => e.git_branch = b ∨ e.git_branch = []),
            e ∈ SQLiteEventStore.load_all st :=
          fun e he => hsql_all e (List.mem_filter.mp he).1
        have hinvf : ImmortalTypeInv
            (st.events.filter (fun e => e.git_branch = b ∨ e.git_branch = [])) :=
          fun e he => hsql e (List.mem_filter.mp he).1
        simpa [SQLiteEventStore.load_for_briefing, hb] using
          briefingCore_ok lib now _ _ hsubf hinvf

/-- Witness for the C3 theorem on a concrete three-event store. -/
theorem load_for_briefing_buckets_witness :
    ImmortalTypeInv [evDecision, evKnowledge, evPlan] ∧
      DisjointBuckets
        (EventStore.load_for_briefing libModel 0 [evDecision, evKnowledge, evPlan] none) :=
  ⟨by decide,
    (load_for_briefing_buckets libModel 0 [evDecision, evKnowledge, evPlan]
      ⟨[], []⟩ none (by decide) (by decide)).1.1⟩

/-- `CHARS_PER_TOKEN` from `briefing.py`. -/
def CHARS_PER_TOKEN : ℕ := 4

/-- The `# Decisions & Rejections` section header line. -/
def hdrDecisions : Str := (r"# Decisions & Rejections").data ++ ['\n', '\n']

/-- The `## Active Plan` section header line. -/
def hdrActivePlan : Str := (r"## Active Plan").data ++ ['\n', '\n']

/-- The `## Recent Context` section header line. -/
def hdrRecent : Str := (r"## Recent Context").data ++ ['\n', '\n']

/-- The `(no content)` placeholder. -/
def noContent : Str := (r"(no content)").data

/-- Python whitespace for `str.strip()` (ASCII portion). -/
def isPySpace (c : Char) : Bool :=
  c = ' ' ∨ c = '\t' ∨ c = '\n' ∨ c = '\r' ∨ c = '\x0b' ∨ c = '\x0c'

/-- Python `s.strip()`. -/
def pyStrip (s : Str) : Str :=
  ((s.dropWhile isPySpace).reverse.dropWhile isPySpace).reverse

/-- `_format_event_line(event, full)` from `briefing.py`: a bulleted
markdown item, summarised to the first line truncated at 80 characters
(plus an ellipsis) when `full` is false and content is non-empty. -/
def _format_event_line (event : Event) (full : Bool) : Str :=
  if full || event.content.isEmpty then
    let content := if (pyStrip event.content).isEmpty then noContent else pyStrip event.content
    ['-', ' '] ++ content ++ ['\n']
  else
    let raw := pyStrip event.content
    let first0 := raw.takeWhile (fun c => c ≠ '\n')
    let first_line := if raw.isEmpty then noContent else first0.take 80
    let first_line := if 80 < first0.length then first_line ++ ['.', '.', '.'] else first_line
    ['-', ' '] ++ first_line ++ ['\n']

/-- The `add` closure of `_render_briefing`: refuse a string that
would push the used budget past `max_chars`, otherwise append it. -/
def addLine (max_chars : ℕ) (st : List Str × ℕ) (s : Str) : Option (List Str × ℕ) :=
  if max_chars < st.2 + s.length then none else some (st.1 ++ [s], st.2 + s.length)

/-- Feed a list of candidate strings through `addLine`; the Bool is
false when a string was refused (the source then returns early). -/
def addLines (max_chars : ℕ) : List Str × ℕ → List Str → (List Str × ℕ) × Bool
  | st, [] => (st, true)
  | st, s :: rest =>
    match addLine max_chars st s with
    | none => (st, false)
    | some st2 => addLines max_chars st2 rest

/-- Python `"".join(parts)`. -/
def strJoin : List Str → Str
  | [] => []
  | s :: rest => s ++ strJoin rest

/-- The `full_immortal` slice: `immortal[:max_full]`. -/
def fullImmortal (immortal : List Event) (max_full : ℕ) : List Event :=
  immortal.take max_full

/-- The `summary_immortal` slice:
`immortal[max_full : max_full + max_summary] if max_summary else []`. -/
def summaryImmortal (immortal : List Event) (max_full max_summary : ℕ) : List Event :=
  if max_summary = 0 then [] else (immortal.drop max_full).take max_summary

/-- The candidate strings of the `# Decisions & Rejections` section
(header gated on the section having items, full items, then one-line
summaries, then a blank line). -/
def decisionsSection (immortal : List Event) (max_full max_summary : ℕ) : List Str :=
  if (fullImmortal immortal max_full).isEmpty &&
      (summaryImmortal immortal max_full max_summary).isEmpty then []
  else
    hdrDecisions ::
      ((fullImmortal immortal max_full).map (fun e => _format_event_line e true) ++
        (summaryImmortal immortal max_full max_summary).map
          (fun e => _format_event_line e false) ++ [['\n']])

/-- The candidate strings of the `## Active Plan` section. -/
def planSection (active_plan : List Event) : List Str :=
  if active_plan.isEmpty then []
  else hdrActivePlan :: (active_plan.map (fun e => _format_event_line e true) ++ [['\n']])

/-- The candidate strings of the `## Recent Context` section. -/
def recentSection (recent : List Event) : List Str :=
  if recent.isEmpty then []
  else hdrRecent :: recent.map (fun e => _format_event_line e true)

/-- `_render_briefing` from `briefing.py` (lines 158–228): emit the
three sections' candidate strings in order through the budget check,
returning what has been built at the first refusal. -/
def _render_briefing (immortal active_plan recent : List Event)
    (max_chars max_full max_summary : ℕ) : Str :=
  match addLines max_chars ([], 0) (decisionsSection immortal max_full max_summary) with
  | (st1, false) => strJoin st1.1
  | (st1, true) =>
    match addLines max_chars st1 (planSection active_plan) with
    | (st2, false) => strJoin st2.1
    | (st2, true) => strJoin (addLines max_chars st2 (recentSection recent)).1.1

/-- All candidate strings of the briefing, in emission order
(specification view of §4.H). -/
def briefingCandidates (immortal active_plan recent : List Event)
    (max_full max_summary : ℕ) : List Str :=
  decisionsSection immortal max_full max_summary ++
    planSection active_plan ++ recentSection recent

/-- Specification view of the budget loop: take candidates greedily,
stopping at the first one that would exceed the budget. -/
def greedyTake (max_chars : ℕ) : ℕ → List Str → List Str
  | _, [] => []
  | used, s :: rest =>
    if max_chars < used + s.length then []
    else s :: greedyTake max_chars (used + s.length) rest

/-- Total length of a list of strings. -/
def lenSum (ps : List Str) : ℕ := (ps.map List.length).sum

/-- The add loop accumulates exactly the greedily affordable prefix. -/
theorem addLines_fst (mc : ℕ) :
    ∀ (xs : List Str) (parts : List Str) (used : ℕ),
      (addLines mc (parts, used) xs).1
        = (parts ++ greedyTake mc used xs, used + lenSum (greedyTake mc used xs)) := by
  intro xs
  induction xs with
  | nil => intro parts used; simp [addLines, greedyTake, lenSum]
  | cons s rest ih =>
    intro parts used
    by_cases h : mc < used + s.length
    · simp [addLines, addLine, greedyTake, h, lenSum]
    · simp only [addLines, addLine, h, if_false, greedyTake]
      rw [ih (parts ++ [s]) (used + s.length)]
      simp only [lenSum, List.map_cons, List.sum_cons, List.append_assoc,
        List.singleton_append, Prod.mk.injEq, true_and]
      omega

/-- The add loop succeeds on the whole list iff the greedy prefix is
the whole list. -/
theorem addLines_snd (mc : ℕ) :
    ∀ (xs : List Str) (parts : List Str) (used : ℕ),
      (addLines mc (parts, used) xs).2 = true ↔ greedyTake mc used xs = xs := by
  intro xs
  induction xs with
  | nil => intro parts used; simp [addLines, greedyTake]
  | cons s rest ih =>
    intro parts used
    by_cases h : mc < used + s.length
    · simp only [addLines, addLine, h, if_true, greedyTake]
      simp
    · simp only [addLines, addLine, h, if_false, greedyTake]
      rw [ih (parts ++ [s]) (used + s.length)]
      simp

/-- A stopped greedy prefix ignores anything appended afterwards. -/
theorem greedyTake_append_of_ne (mc : ℕ) :
    ∀ (xs ys : List Str) (used : ℕ), greedyTake mc used xs ≠ xs →
      greedyTake mc used (xs ++ ys) = greedyTake mc used xs := by
  intro xs
  induction xs with
  | nil => intro ys used h; exact absurd rfl h
  | cons s rest ih =>
    intro ys used h
    by_cases hlt : mc < used + s.length
    · simp [greedyTake, hlt]
    · simp only [greedyTake, hlt, if_false, List.cons_append, List.append_eq] at h ⊢
      have h2 : greedyTake mc (used + s.length) rest ≠ rest := by
        intro hc; exact h (by rw [hc])
      rw [ih ys (used + s.length) h2]

/-- A fully consumed greedy prefix continues into the appended part
with the accumulated budget. -/
theorem greedyTake_append_of_eq (mc : ℕ) :
    ∀ (xs ys : List Str) (used : ℕ), greedyTake mc used xs = xs →
      greedyTake mc used (xs ++ ys) = xs ++ greedyTake mc (used + lenSum xs) ys := by
  intro xs
  induction xs with
  | nil => intro ys used _; simp [lenSum]
  | cons s rest ih =>
    intro ys used h
    by_cases hlt : mc < used + s.length
    · simp [greedyTake, hlt] at h
    · simp only [greedyTake, hlt, if_false, List.cons_append, List.append_eq,
        List.cons.injEq, true_and] at h ⊢
      rw [ih ys (used + s.length) h]
      have harith : used + s.length + lenSum rest = used + lenSum (s :: rest) := by
        simp only [lenSum, List.map_cons, List.sum_cons]
        omega
      rw [harith]

/-- The greedy prefix never exceeds the remaining budget. -/
theorem greedyTake_le (mc : ℕ) :
    ∀ (xs : List Str) (used : ℕ), used ≤ mc →
      used + lenSum (greedyTake mc used xs) ≤ mc := by
  intro xs
  induction xs with
  | nil => intro used h; simpa [greedyTake, lenSum] using h
  | cons s rest ih =>
    intro used h
    by_cases hlt : mc < used + s.length
    · simpa [greedyTake, hlt, lenSum] using h
    · have := ih (used + s.length) (by omega)
      simp only [greedyTake, hlt, if_false, lenSum, List.map_cons, List.sum_cons] at this ⊢
      omega

/-- Length of a joined string. -/
theorem strJoin_length : ∀ ps : List Str, (strJoin ps).length = lenSum ps := by
  intro ps
  induction ps with
  | nil => simp [strJoin, lenSum]
  | cons s rest ih => simp [strJoin, lenSum, ih, lenSum]

/-- The greedy prefix only contains candidate strings. -/
theorem mem_greedyTake (mc : ℕ) :
    ∀ (xs : List Str) (used : ℕ) (a : Str), a ∈ greedyTake mc used xs → a ∈ xs := by
  intro xs
  induction xs with
  | nil => intro used a h; simp [greedyTake] at h
  | cons s rest ih =>
    intro used a h
    by_cases hlt : mc < used + s.length
    · simp [greedyTake, hlt] at h
    · simp only [greedyTake, hlt, if_false, List.mem_cons] at h
      rcases h with rfl | h
      · exact List.mem_cons_self _ _
      · exact List.mem_cons_of_mem _ (ih (used + s.length) a h)

/-- The add loop distributes over concatenation, stopping early on a
refusal. -/
theorem addLines_append (mc : ℕ) :
    ∀ (xs ys : List Str) (st : List Str × ℕ),
      addLines mc st (xs ++ ys)
        = (match addLines mc st xs with
           | (st1, true) => addLines mc st1 ys
           | (st1, false) => (st1, false)) := by
  intro xs
  induction xs with
  | nil => intro ys st; simp [addLines]
  | cons s rest ih =>
    intro ys st
    simp only [List.cons_append, addLines]
    cases addLine mc st s with
    | none => rfl
    | some st2 => exact ih ys st2

/-- `_render_briefing` equals one add-loop pass over all candidates. -/
theorem render_eq_addLines (imm act rec : List Event) (mc mf ms : ℕ) :
    _render_briefing imm act rec mc mf ms
      = strJoin (addLines mc ([], 0) (briefingCandidates imm act rec mf ms)).1.1 := by
  unfold _render_briefing briefingCandidates
  rw [List.append_assoc,
    addLines_append mc (decisionsSection imm mf ms) (planSection act ++ recentSection rec)]
  rcases h1 : addLines mc ([], 0) (decisionsSection imm mf ms) with ⟨st1, b1⟩
  cases b1 with
  | false => rfl
  | true =>
    simp only
    rw [addLines_append mc (planSection act) (recentSection rec)]
    rcases h2 : addLines mc st1 (planSection act) with ⟨st2, b2⟩
    cases b2 with
    | false => rfl
    | true => rfl

/-- `_render_briefing` emits exactly the greedy prefix of the
candidate list: composition stops at the first line that would exceed
the budget. -/
theorem render_eq_greedy (imm act rec : List Event) (mc mf ms : ℕ) :
    _render_briefing imm act rec mc mf ms
      = strJoin (greedyTake mc 0 (briefingCandidates imm act rec mf ms)) := by
  rw [render_eq_addLines]
  have h := congrArg Prod.fst (addLines_fst mc (briefingCandidates imm act rec mf ms) [] 0)
  simp only at h
  rw [h, List.nil_append]

/-- Every rendered event line starts with a dash bullet. -/
theorem format_head (e : Event) (b : Bool) :
    ∃ t, _format_event_line e b = '-' :: ' ' :: t := by
  unfold _format_event_line
  split
  · exact ⟨_, rfl⟩
  · exact ⟨_, rfl⟩

/-- A string that does not start with a dash is no rendered event
line. -/
theorem not_mem_map_format {s : Str} {evs : List Event} {b : Bool}
    (hhead : s.head? ≠ some '-') :
    s ∉ evs.map (fun e => _format_event_line e b) := by
  intro h
  obtain ⟨e, _, heq⟩ := List.mem_map.mp h
  obtain ⟨u, hu⟩ := format_head e b
  rw [hu] at heq
  exact hhead (by rw [← heq]; rfl)

/-- Shape of the members of the decisions section. -/
theorem mem_decisionsSection {s : Str} {imm : List Event} {mf ms : ℕ}
    (h : s ∈ decisionsSection imm mf ms) :
    s = hdrDecisions ∨ s = ['\n'] ∨ s.head? = some '-' := by
  unfold decisionsSection at h
  split at h
  · simp at h
  · rcases List.mem_cons.mp h with rfl | h
    · exact Or.inl rfl
    · rcases List.mem_append.mp h with h | h
      · rcases List.mem_append.mp h with h | h
        · obtain ⟨e, _, heq⟩ := List.mem_map.mp h
          obtain ⟨u, hu⟩ := format_head e true
          right; right; rw [← heq, hu]; rfl
        · obtain ⟨e, _, heq⟩ := List.mem_map.mp h
          obtain ⟨u, hu⟩ := format_head e false
          right; right; rw [← heq, hu]; rfl
      · simp only [List.mem_singleton] at h
        exact Or.inr (Or.inl h)

/-- Shape of the members of the active-plan section. -/
theorem mem_planSection {s : Str} {act : List Event}
    (h : s ∈ planSection act) :
    s = hdrActivePlan ∨ s = ['\n'] ∨ s.head? = some '-' := by
  unfold planSection at h
  split at h
  · simp at h
  · rcases List.mem_cons.mp h with rfl | h
    · exact Or.inl rfl
    · rcases List.mem_append.mp h with h | h
      · obtain ⟨e, _, heq⟩ := List.mem_map.mp h
        obtain ⟨u, hu⟩ := format_head e true
        right; right; rw [← heq, hu]; rfl
      · simp only [List.mem_singleton] at h
        exact Or.inr (Or.inl h)

/-- Shape of the members of the recent section. -/
theorem mem_recentSection {s : Str} {rec : List Event}
    (h : s ∈ recentSection rec) :
    s = hdrRecent ∨ s.head? = some '-' := by
  unfold recentSection at h
  split at h
  · simp at h
  · rcases List.mem_cons.mp h with rfl | h
    · exact Or.inl rfl
    · obtain ⟨e, _, heq⟩ := List.mem_map.mp h
      obtain ⟨u, hu⟩ := format_head e true
      right; rw [← heq, hu]; rfl

/-- C6: with the budget `max_briefing_tokens × CHARS_PER_TOKEN`, the
rendered briefing has at most `4 × max_briefing_tokens` characters; it
is exactly the join of the greedy prefix of the candidate lines
(composition stops at the first line that would exceed the budget);
and no section header is emitted for a section with no content. -/
theorem render_briefing_ok (immortal active_plan recent : List Event)
    (maxTok mf ms : ℕ) :
    (_render_briefing immortal active_plan recent (maxTok * CHARS_PER_TOKEN) mf ms).length
        ≤ 4 * maxTok ∧
      _render_briefing immortal active_plan recent (maxTok * CHARS_PER_TOKEN) mf ms
        = strJoin (greedyTake (maxTok * CHARS_PER_TOKEN) 0
            (briefingCandidates immortal active_plan recent mf ms)) ∧
      (immortal = [] → hdrDecisions ∉ greedyTake (maxTok * CHARS_PER_TOKEN) 0
          (briefingCandidates immortal active_plan recent mf ms)) ∧
      (active_plan = [] → hdrActivePlan ∉ greedyTake (maxTok * CHARS_PER_TOKEN) 0
          (briefingCandidates immortal active_plan recent mf ms)) ∧
      (recent = [] → hdrRecent ∉ greedyTake (maxTok * CHARS_PER_TOKEN) 0
          (briefingCandidates immortal active_plan recent mf ms)) := by
  have heq := render_eq_greedy immortal active_plan recent (maxTok * CHARS_PER_TOKEN) mf ms
  refine ⟨?_, heq, ?_, ?_, ?_⟩
  · rw [heq, strJoin_length]
    have hle := greedyTake_le (maxTok * CHARS_PER_TOKEN)
      (briefingCandidates immortal active_plan recent mf ms) 0 (Nat.zero_le _)
    simp only [CHARS_PER_TOKEN] at hle ⊢
    omega
  · intro himm h
    have hmem := mem_greedyTake _ _ _ _ h
    subst himm
    have hds : decisionsSection [] mf ms = [] := by
      simp [decisionsSection, fullImmortal, summaryImmortal]
    rw [briefingCandidates, hds, List.nil_append] at hmem
    rcases List.mem_append.mp hmem with hp | hr
    · rcases mem_planSection hp with h2 | h2 | h2 <;> exact absurd h2 (by decide)
    · rcases mem_recentSection hr with h2 | h2 <;> exact absurd h2 (by decide)
  · intro hact h
    have hmem := mem_greedyTake _ _ _ _ h
    subst hact
    have hps : planSection [] = [] := by simp [planSection]
    rw [briefingCandidates, hps, List.append_nil] at hmem
    rcases List.mem_append.mp hmem with hd | hr
    · rcases mem_decisionsSection hd with h2 | h2 | h2 <;> exact absurd h2 (by decide)
    · rcases mem_recentSection hr with h2 | h2 <;> exact absurd h2 (by decide)
  · intro hrec h
    have hmem := mem_greedyTake _ _ _ _ h
    subst hrec
    have hrs : recentSection [] = [] := by simp [recentSection]
    rw [briefingCandidates, hrs, List.append_nil] at hmem
    rcases List.mem_append.mp hmem with hd | hp
    · rcases mem_decisionsSection hd with h2 | h2 | h2 <;> exact absurd h2 (by decide)
    · rcases mem_planSection hp with h2 | h2 | h2 <;> exact absurd h2 (by decide)

/-- Witness for the C6 theorem: with no recent events and the default
caps, the recent-context header is not emitted. -/
theorem render_briefing_ok_witness :
    ([] : List Event) = [] ∧
      hdrRecent ∉ greedyTake (3000 * CHARS_PER_TOKEN) 0
        (briefingCandidates [evDecision] [evPlan] [] 50 30) :=
  ⟨rfl, (render_briefing_ok [evDecision] [evPlan] [] 3000 50 30).2.2.2.2 rfl⟩

/-- ASCII `str.lower()` (enough to detect the ASCII patterns the
error sniffing looks for). -/
def strLower (s : Str) : Str :=
  s.map (fun c => if 'A' ≤ c ∧ c ≤ 'Z' then Char.ofNat (c.toNat + 32) else c)

/-- Python `pat in s` on strings: substring containment. -/
def strContains (s pat : Str) : Bool := decide (pat <:+: s)

/-- The FTS5 special characters checked by `_escape_fts_query`. -/
def ftsSpecialChars : List Char := ['"', '(', ')', ':', '-', '^']

/-- `_escape_fts_query(query)` from `search.py`: a query containing a
special character is wrapped in double quotes with internal quotes
doubled; other queries pass through. -/
def _escape_fts_query (query : Str) : Str :=
  if query.any (fun c => c ∈ ftsSpecialChars) then
    ['"'] ++ query.flatMap (fun c => if c = '"' then ['"', '"'] else [c]) ++ ['"']
  else query

/-- A search result from `search.py`. -/
structure SearchResult where
  event : Event
  score : ℚ
  snippet : Str

/-- A row of the FTS join (event columns plus `bm25` score and
`snippet`). -/
structure SearchRow where
  event : Event
  score : ℚ
  snippet : Str

/-- Outcome of executing the FTS `MATCH` statement: either the ordered
rows or a `sqlite3.OperationalError` carrying its message. -/
inductive FtsOutcome where
  | rows : List SearchRow → FtsOutcome
  | err : Str → FtsOutcome

/-- How the SQL engine answers the search statement, given the escaped
match query and the optional type/branch filters and limit. -/
abbrev FtsExec := Str → Option EventType → Option Str → ℕ → FtsOutcome

/-- `_row_to_search_result(row)` from `search.py`: flip the negative
BM25 score to `|bm25|`, fall back to a 100-character content preview
when the snippet is empty. -/
def _row_to_search_result (row : SearchRow) : SearchResult :=
  { event := row.event
    score := |row.score|
    snippet := if row.snippet.isEmpty then row.event.content.take 100 else row.snippet }

/-- `search(conn, query, limit, event_type, branch)` from `search.py`:
empty/whitespace queries short-circuit to `[]`; an
`OperationalError` whose lowered message mentions `fts5` or `syntax`
(the engine's rejection of an invalid query) is swallowed to `[]`;
any other error propagates. -/
def search (ftsExec : FtsExec) (query : Str) (limit : ℕ)
    (event_type : Option EventType) (branch : Option Str) :
    Except Str (List SearchResult) :=
  if (pyStrip query).isEmpty then .ok []
  else
    match ftsExec (_escape_fts_query query) event_type branch limit with
    | .rows rows => .ok (rows.map _row_to_search_result)
    | .err msg =>
        if (strContains (strLower msg) (r"fts5").data ||
            strContains (strLower msg) (r"syntax").data) then .ok []
        else .error msg

/-- C9: keyword search returns the empty list on an empty or
whitespace query, and returns the empty list (rather than raising)
when the full-text engine rejects the query as syntactically invalid
(an operational error mentioning `fts5` or `syntax`). -/
theorem search_empty_or_invalid_returns_empty (ftsExec : FtsExec) (query : Str)
    (limit : ℕ) (event_type : Option EventType) (branch : Option Str)
    (h : (pyStrip query).isEmpty = true ∨
      ∃ msg, ftsExec (_escape_fts_query query) event_type branch limit = .err msg ∧
        (strContains (strLower msg) (r"fts5").data ||
          strContains (strLower msg) (r"syntax").data) = true) :
    search ftsExec query limit event_type branch = .ok [] := by
  rcases h with h | ⟨msg, hmsg, hmatch⟩
  · simp [search, h]
  · by_cases hq : (pyStrip query).isEmpty
    · simp [search, hq]
    · simp [search, hq, hmsg, hmatch]

/-- An engine model that rejects every query as invalid FTS syntax. -/
def ftsRejectAll : FtsExec :=
  fun _ _ _ _ => .err (r"fts5: syntax error near open paren").data

/-- Witness for the C9 theorem on a concrete query and an engine that
rejects it. -/
theorem search_empty_or_invalid_returns_empty_witness :
    ((pyStrip (r"SELECT (").data).isEmpty = true ∨
      ∃ msg, ftsRejectAll (_escape_fts_query (r"SELECT (").data) none none 20 = .err msg ∧
        (strContains (strLower msg) (r"fts5").data ||
          strContains (strLower msg) (r"syntax").data) = true) ∧
      search ftsRejectAll (r"SELECT (").data 20 none none = .ok [] :=
  ⟨Or.inr ⟨(r"fts5: syntax error near open paren").data, rfl, by decide⟩,
    search_empty_or_invalid_returns_empty ftsRejectAll (r"SELECT (").data 20 none none
      (Or.inr ⟨(r"fts5: syntax error near open paren").data, rfl, by decide⟩)⟩

/-- A Python exception raised by an internal operation (class
`Exception`, the class caught by each handler's firewall). -/
structure PyErr where
  msg : Str

/-- Result of `identify_project(cwd)` (`project.py`): the fields the
handlers read (`git_info` is unused by them). -/
structure ProjectIdentity where
  path : Str
  hash : Str
  git_branch : Str

/-- The configuration fields the handlers read.  `cortex/config.py` is
not under `src/`; the field is modelled from the spec:
`storage_tier` (0|1|2|3) of the §3 Config object. -/
structure HookConfig where
  storage_tier : ℤ

/-- The hook-state dictionary of `HookState.load` (`store.py`), with
its documented defaults already applied. -/
structure HookStateData where
  last_transcript_position : ℤ
  last_transcript_path : Str
  last_session_id : Str
  session_count : ℤ
  last_extraction_time : Str

/-- A parsed transcript entry, opaque to the handlers (they only pass
entries to the extractor). -/
structure EntryRef where
  tag : ℤ

/-- Behaviour of everything a hook handler orchestrates — project
identification, config loading, hook state, transcript reading,
extraction, storage, and file output.  Every operation may raise
(return `.error`); the handlers must contain those errors. -/
structure HookEnv where
  identifyProject : Str → Except PyErr ProjectIdentity
  loadConfig : Except PyErr HookConfig
  stateLoad : Str → Except PyErr HookStateData
  transcriptExists : Str → Except PyErr Bool
  readNew : Str → ℤ → Except PyErr (List EntryRef × ℤ)
  extractEvents : List EntryRef → Str → Str → Str → Except PyErr (List Event)
  appendMany : Str → List Event → Except PyErr Unit
  stateUpdate : Str → HookStateData → Except PyErr Unit
  regenerateProjections : Except PyErr Unit
  findTranscriptDir : Str → Except PyErr (Option Str)
  findLatestTranscript : Str → Except PyErr (Option Str)
  writeBriefing : Str → Except PyErr Unit
  writeRelevantContext : Str → Str → Except PyErr Unit

/-- A payload value used at a string position (Python is unityped; a
truthy non-string would make the next library call raise, which the
environment's `.error` outcomes already model). -/
def asStrOr (v : Option JsonVal) (dflt : Str) : Str :=
  match v with
  | some (.jstr s) => s
  | _ => dflt

/-- The `try` block of `handle_stop` (`hooks.py` lines 56–122): every
successful exit returns 0. -/
def handle_stop_body (env : HookEnv) (payload : Dict) (regenerate_projections : Bool)
    (now : Str) : Except PyErr ℤ := do
  if jsonTruthyOpt (dictGet payload (r"stop_hook_active").data) then return 0
  let cwdV := dictGet payload (r"cwd").data
  if ¬ jsonTruthyOpt cwdV then return 0
  let cwd := asStrOr cwdV []
  let identity ← env.identifyProject cwd
  let session_id := asStrOr (dictGet payload (r"session_id").data) []
  let transcriptV := dictGet payload (r"transcript_path").data
  if ¬ jsonTruthyOpt transcriptV then return 0
  let transcript_path := asStrOr transcriptV []
  let _config ← env.loadConfig
  let state_data ← env.stateLoad identity.hash
  let from_offset :=
    if transcript_path = state_data.last_transcript_path
    then state_data.last_transcript_position else 0
  let tex ← env.transcriptExists transcript_path
  if ¬ tex then return 0
  let res ← env.readNew transcript_path from_offset
  if res.1.isEmpty then
    let _ ← env.stateUpdate identity.hash
      { state_data with
        last_transcript_position := res.2
        last_transcript_path := transcript_path
        last_session_id := session_id
        last_extraction_time := now }
    if regenerate_projections then
      let _ := env.regenerateProjections
      return 0
    return 0
  let events ← env.extractEvents res.1 session_id identity.path identity.git_branch
  if ¬ events.isEmpty then
    let _ ← env.appendMany identity.hash events
  let _ ← env.stateUpdate identity.hash
    { state_data with
      last_transcript_position := res.2
      last_transcript_path := transcript_path
      last_session_id := session_id
      session_count := state_data.session_count + 1
      last_extraction_time := now }
  if regenerate_projections then
    let _ := env.regenerateProjections
    return 0
  return 0

/-- `handle_stop` from `hooks.py`: the body behind the
`except Exception` firewall, which logs and returns 0. -/
def handle_stop (env : HookEnv) (payload : Dict) (regenerate_projections : Bool)
    (now : Str) : ℤ :=
  match handle_stop_body env payload regenerate_projections now with
  | .ok n => n
  | .error _ => 0

/-- The `try` block of `handle_precompact` (`hooks.py` lines
152–197). -/
def handle_precompact_body (env : HookEnv) (payload : Dict) (now : Str) :
    Except PyErr ℤ := do
  let cwdV := dictGet payload (r"cwd").data
  if ¬ jsonTruthyOpt cwdV then return 0
  let cwd := asStrOr cwdV []
  let identity ← env.identifyProject cwd
  let _config ← env.loadConfig
  let tdir ← env.findTranscriptDir cwd
  let tpath ← match tdir with
    | some d => env.findLatestTranscript d
    | none => pure none
  match tpath with
  | some tp => do
      let state_data ← env.stateLoad identity.hash
      let from_offset :=
        if tp = state_data.last_transcript_path
        then state_data.last_transcript_position else 0
      let res ← env.readNew tp from_offset
      if ¬ res.1.isEmpty then
        let events ← env.extractEvents res.1 state_data.last_session_id identity.path
          identity.git_branch
        if ¬ events.isEmpty then
          let _ ← env.appendMany identity.hash events
        let _ ← env.stateUpdate identity.hash
          { state_data with
            last_transcript_position := res.2
            last_transcript_path := tp
            last_extraction_time := now }
      let _ ← env.writeBriefing cwd
      return 0
  | none => do
      let _ ← env.writeBriefing cwd
      return 0

/-- `handle_precompact` from `hooks.py`. -/
def handle_precompact (env : HookEnv) (payload : Dict) (now : Str) : ℤ :=
  match handle_precompact_body env payload now with
  | .ok n => n
  | .error _ => 0

/-- The `try` block of `handle_session_start` (`hooks.py` lines
209–224). -/
def handle_session_start_body (env : HookEnv) (payload : Dict) : Except PyErr ℤ := do
  let cwdV := dictGet payload (r"cwd").data
  if ¬ jsonTruthyOpt cwdV then return 0
  let cwd := asStrOr cwdV []
  let _identity ← env.identifyProject cwd
  let _config ← env.loadConfig
  let _ ← env.writeBriefing cwd
  return 0

/-- `handle_session_start` from `hooks.py`. -/
def handle_session_start (env : HookEnv) (payload : Dict) : ℤ :=
  match handle_session_start_body env payload with
  | .ok n => n
  | .error _ => 0

/-- The `try` block of `handle_user_prompt_submit` (`hooks.py` lines
242–270). -/
def handle_user_prompt_submit_body (env : HookEnv) (payload : Dict) :
    Except PyErr ℤ := do
  let cwdV := dictGet payload (r"cwd").data
  let promptV := dictGet payload (r"prompt").data
  if ¬ jsonTruthyOpt cwdV ∨ ¬ jsonTruthyOpt promptV then return 0
  let cwd := asStrOr cwdV []
  let prompt := asStrOr promptV []
  let _identity ← env.identifyProject cwd
  let config ← env.loadConfig
  if config.storage_tier < 2 then return 0
  let _ ← env.writeRelevantContext cwd prompt
  return 0

/-- `handle_user_prompt_submit` from `hooks.py`. -/
def handle_user_prompt_submit (env : HookEnv) (payload : Dict) : ℤ :=
  match handle_user_prompt_submit_body env payload with
  | .ok n => n
  | .error _ => 0

/-- Every successful exit of the Stop body carries exit code 0. -/
theorem handle_stop_body_zero (env : HookEnv) (payload : Dict) (regen : Bool)
    (now : Str) : ∀ n, handle_stop_body env payload regen now = .ok n → n = 0 := by
  unfold handle_stop_body
  simp only [Bind.bind, Except.bind, Pure.pure, Except.pure]
  intro n heq
  repeat' split at heq
  all_goals first | exact Except.noConfusion heq | (injection heq with h; omega)

/-- Every successful exit of the PreCompact body carries exit code 0. -/
theorem handle_precompact_body_zero (env : HookEnv) (payload : Dict) (now : Str) :
    ∀ n, handle_precompact_body env payload now = .ok n → n = 0 := by
  unfold handle_precompact_body
  simp only [Bind.bind, Except.bind, Pure.pure, Except.pure]
  intro n heq
  repeat' split at heq
  all_goals first | exact Except.noConfusion heq | (injection heq with h; omega)

/-- Every successful exit of the SessionStart body carries exit code 0. -/
theorem handle_session_start_body_zero (env : HookEnv) (payload : Dict) :
    ∀ n, handle_session_start_body env payload = .ok n → n = 0 := by
  unfold handle_session_start_body
  simp only [Bind.bind, Except.bind, Pure.pure, Except.pure]
  intro n heq
  repeat' split at heq
  all_goals first | exact Except.noConfusion heq | (injection heq with h; omega)

/-- Every successful exit of the UserPromptSubmit body carries exit
code 0. -/
theorem handle_user_prompt_submit_body_zero (env : HookEnv) (payload : Dict) :
    ∀ n, handle_user_prompt_submit_body env payload = .ok n → n = 0 := by
  unfold handle_user_prompt_submit_body
  simp only [Bind.bind, Except.bind, Pure.pure, Except.pure]
  intro n heq
  repeat' split at heq
  all_goals first | exact Except.noConfusion heq | (injection heq with h; omega)

/-- C5: for every JSON payload (missing fields included) and every
behaviour of the orchestrated operations — any of which may raise —
each of the four hook handlers (Stop, PreCompact, SessionStart,
UserPromptSubmit) returns exit code 0 and never propagates the
exception to the host. -/
theorem hook_handlers_return_zero (env : HookEnv) (payload : Dict) (regen : Bool)
    (now : Str) :
    handle_stop env payload regen now = 0 ∧
      handle_precompact env payload now = 0 ∧
      handle_session_start env payload = 0 ∧
      handle_user_prompt_submit env payload = 0 := by
  refine ⟨?_, ?_, ?_, ?_⟩
  · unfold handle_stop
    cases hb : handle_stop_body env payload regen now with
    | ok n => exact handle_stop_body_zero env payload regen now n hb
    | error e => rfl
  · unfold handle_precompact
    cases hb : handle_precompact_body env payload now with
    | ok n => exact handle_precompact_body_zero env payload now n hb
    | error e => rfl
  · unfold handle_session_start
    cases hb : handle_session_start_body env payload with
    | ok n => exact handle_session_start_body_zero env payload n hb
    | error e => rfl
  · unfold handle_user_prompt_submit
    cases hb : handle_user_prompt_submit_body env payload with
    | ok n => exact handle_user_prompt_submit_body_zero env payload n hb
    | error e => rfl

/-- `VectorSearchResult` from `vec.py`. -/
structure VectorSearchResult where
  event_id : Str
  distance : ℚ
  similarity : ℚ

/-- `HybridResult` from `hybrid_search.py`. -/
structure HybridResult where
  event : Event
  fts_rank : Option ℕ
  vec_rank : Option ℕ
  rrf_score : ℚ
  fts_score : Option ℚ
  similarity : Option ℚ
  snippet : Str

/-- `_compute_rrf_score` from `hybrid_search.py`:
`score = Σ weight / (k + rank)`, a missing rank contributing zero. -/
def _compute_rrf_score (fts_rank vec_rank : Option ℕ) (k fts_weight vec_weight : ℚ) : ℚ :=
  (match fts_rank with
   | none => 0
   | some rank => fts_weight / (k + (rank : ℚ))) +
  (match vec_rank with
   | none => 0
   | some rank => vec_weight / (k + (rank : ℚ)))

/-- `_load_event(conn, event_id)` from `hybrid_search.py`:
`SELECT * FROM events WHERE id = ?`, first row or `None`. -/
def _load_event (store : List Event) (event_id : Str) : Option Event :=
  store.find? (fun e => e.id = event_id)

/-- `d[k] = v` on a Python dict: replace an existing binding in place,
else append (preserving insertion order). -/
def pyDictInsert {β : Type} (m : List (Str × β)) (key : Str) (v : β) : List (Str × β) :=
  if m.any (fun p => p.1 = key) then
    m.map (fun p => if p.1 = key then (key, v) else p)
  else m ++ [(key, v)]

/-- Build a Python dict from a sequence of key/value assignments. -/
def pyDictOfPairs {β : Type} (xs : List (Str × β)) : List (Str × β) :=
  xs.foldl (fun m p => pyDictInsert m p.1 p.2) []

/-- `d.get(k)`/`k in d` on a Python dict. -/
def pyDictFind {β : Type} (m : List (Str × β)) (key : Str) : Option β :=
  (m.find? (fun p => p.1 = key)).map (fun p => p.2)

/-- The `fts_map` of `hybrid_search`: event id ↦ (1-based rank,
result). -/
def ftsRankMap (fts_results : List SearchResult) : List (Str × (ℕ × SearchResult)) :=
  pyDictOfPairs (fts_results.enum.map (fun p => (p.2.event.id, (p.1 + 1, p.2))))

/-- The `vec_map` of `hybrid_search`: event id ↦ (1-based rank,
result). -/
def vecRankMap (vec_results : List VectorSearchResult) :
    List (Str × (ℕ × VectorSearchResult)) :=
  pyDictOfPairs (vec_results.enum.map (fun p => (p.2.event_id, (p.1 + 1, p.2))))

/-- One iteration of the fusion loop (`hybrid_search.py` lines
133–182): gather both ranks for the id, load the event if only the
vector side knew it (skipping ids whose event is gone), and attach the
RRF score. -/
def fuseOne (store : List Event) (fts_map : List (Str × (ℕ × SearchResult)))
    (vec_map : List (Str × (ℕ × VectorSearchResult)))
    (k fts_weight vec_weight : ℚ) (event_id : Str) : Option HybridResult :=
  let ftsHit := pyDictFind fts_map event_id
  let vecHit := pyDictFind vec_map event_id
  let fts_rank := ftsHit.map (fun h => h.1)
  let fts_score := ftsHit.map (fun h => h.2.score)
  let fts_snippet := match ftsHit with
    | some h => h.2.snippet
    | none => []
  let vec_rank := vecHit.map (fun h => h.1)
  let similarity := vecHit.map (fun h => h.2.similarity)
  let event : Option Event := match ftsHit with
    | some h => some h.2.event
    | none => _load_event store event_id
  match event with
  | none => none
  | some ev =>
      some { event := ev
             fts_rank := fts_rank
             vec_rank := vec_rank
             rrf_score := _compute_rrf_score fts_rank vec_rank k fts_weight vec_weight
             fts_score := fts_score
             similarity := similarity
             snippet := if fts_snippet.isEmpty then ev.content.take 150 else fts_snippet }

/-- `_fts_only_results` from `hybrid_search.py`: rank order, score
`fts_weight / (k + rank)`, truncated to the limit. -/
def _fts_only_results (fts_results : List SearchResult) (k fts_weight : ℚ)
    (limit : ℕ) : List HybridResult :=
  (fts_results.enum.map (fun p =>
    ({ event := p.2.event
       fts_rank := some (p.1 + 1)
       vec_rank := none
       rrf_score := fts_weight / (k + ((p.1 + 1 : ℕ) : ℚ))
       fts_score := some p.2.score
       similarity := none
       snippet := p.2.snippet } : HybridResult))).take limit

/-- `_vec_only_results` from `hybrid_search.py`: rank order, score
`vec_weight / (k + rank)`, events missing from the store skipped,
truncated to the limit. -/
def _vec_only_results (store : List Event) (vec_results : List VectorSearchResult)
    (k vec_weight : ℚ) (limit : ℕ) : List HybridResult :=
  (vec_results.enum.filterMap (fun p =>
    match _load_event store p.2.event_id with
    | none => none
    | some ev =>
        some ({ event := ev
                fts_rank := none
                vec_rank := some (p.1 + 1)
                rrf_score := vec_weight / (k + ((p.1 + 1 : ℕ) : ℚ))
                fts_score := none
                similarity := some p.2.similarity
                snippet := ev.content.take 150 } : HybridResult))).take limit

/-- The `all_event_ids` set union, iterated in a fixed order (Python
set iteration order is unspecified; the proved properties are
order-independent). -/
def allEventIds (fts_map : List (Str × (ℕ × SearchResult)))
    (vec_map : List (Str × (ℕ × VectorSearchResult))) : List Str :=
  fts_map.map (fun p => p.1) ++
    (vec_map.map (fun p => p.1)).filter (fun i => i ∉ fts_map.map (fun p => p.1))

/-- The fusion stage of `hybrid_search` (`hybrid_search.py` lines
107–186), taking the two ranked result lists as produced by the
keyword and vector subsystems: degrade when one side is empty,
otherwise fuse by RRF, sort by score descending and truncate. -/
def hybrid_search (store : List Event) (fts_results : List SearchResult)
    (vec_results : List VectorSearchResult) (limit : ℕ)
    (k fts_weight vec_weight : ℚ) : List HybridResult :=
  if vec_results.isEmpty && !fts_results.isEmpty then
    _fts_only_results fts_results k fts_weight limit
  else if fts_results.isEmpty && !vec_results.isEmpty then
    _vec_only_results store vec_results k vec_weight limit
  else if fts_results.isEmpty && vec_results.isEmpty then []
  else
    let fts_map := ftsRankMap fts_results
    let vec_map := vecRankMap vec_results
    let hybrid_results := (allEventIds fts_map vec_map).filterMap
      (fuseOne store fts_map vec_map k fts_weight vec_weight)
    (sortByRatDesc (fun r => r.rrf_score) hybrid_results).take limit

/-- First index of an id in a list of ids. -/
def idxOf? (id : Str) : List Str → Option ℕ
  | [] => none
  | s :: rest => if s = id then some 0 else (idxOf? id rest).map (fun i => i + 1)

/-- Specification view: the 1-based rank of a document id in a ranked
list of ids (`none` when absent). -/
def rankOf (ids : List Str) (id : Str) : Option ℕ :=
  (idxOf? id ids).map (fun i => i + 1)

/-- Repeated dict assignment with fresh keys is plain accumulation. -/
theorem foldl_pyDictInsert {β : Type} :
    ∀ (xs m : List (Str × β)),
      (xs.map Prod.fst).Nodup → (∀ p ∈ xs, ∀ q ∈ m, q.1 ≠ p.1) →
      xs.foldl (fun m p => pyDictInsert m p.1 p.2) m = m ++ xs := by
  intro xs
  induction xs with
  | nil => intro m _ _; simp
  | cons p rest ih =>
    intro m hnd hdisj
    simp only [List.foldl_cons]
    have hnone : m.any (fun q => q.1 = p.1) = false := by
      rw [List.any_eq_false]
      intro q hq
      simpa using hdisj p (List.mem_cons_self _ _) q hq
    have hins : pyDictInsert m p.1 p.2 = m ++ [p] := by
      unfold pyDictInsert
      rw [hnone]
      simp
    rw [hins]
    simp only [List.map_cons, List.nodup_cons] at hnd
    rw [ih (m ++ [p]) hnd.2 ?_]
    · simp
    · intro p2 hp2 q hq
      rcases List.mem_append.mp hq with hq | hq
      · exact hdisj p2 (List.mem_cons_of_mem _ hp2) q hq
      · simp only [List.mem_singleton] at hq
        subst hq
        intro hc
        exact hnd.1 (hc ▸ List.mem_map_of_mem Prod.fst hp2)

/-- A dict built from distinct keys is the assignment list itself. -/
theorem pyDictOfPairs_self {β : Type} (xs : List (Str × β))
    (h : (xs.map Prod.fst).Nodup) : pyDictOfPairs xs = xs := by
  simpa using foldl_pyDictInsert xs [] h (by simp)

/-- Keys of an enumerated rank map. -/
theorem keys_enumFrom_map {α : Type} (key : α → Str) :
    ∀ (xs : List α) (n : ℕ),
      ((List.enumFrom n xs).map (fun p => (key p.2, (p.1 + 1, p.2)))).map Prod.fst
        = xs.map key := by
  intro xs
  induction xs with
  | nil => intro n; rfl
  | cons x rest ih =>
    intro n
    simp only [List.enumFrom_cons, List.map_cons, List.cons.injEq]
    exact ⟨trivial, ih (n + 1)⟩

/-- Looking a key up in an enumerated rank map finds the first index
of the key together with the element there. -/
theorem find?_enumFrom_map {α : Type} (key : α → Str) (id : Str) :
    ∀ (xs : List α) (n : ℕ),
      ((List.enumFrom n xs).map (fun p => (key p.2, (p.1 + 1, p.2)))).find?
          (fun q => q.1 = id)
        = (idxOf? id (xs.map key)).bind
            (fun i => xs[i]?.map (fun x => (key x, (n + i + 1, x)))) := by
  intro xs
  induction xs with
  | nil => intro n; simp [idxOf?]
  | cons x rest ih =>
    intro n
    by_cases hx : key x = id
    · simp [List.enumFrom_cons, List.find?_cons, idxOf?, hx]
    · simp only [List.enumFrom_cons, List.map_cons, List.find?_cons, idxOf?, hx,
        decide_False, if_false]
      rw [ih (n + 1)]
      cases hidx : idxOf? id (rest.map key) with
      | none => simp
      | some i =>
        have harith : n + 1 + i + 1 = n + (i + 1) + 1 := by omega
        cases hget : rest[i]? with
        | none => simp [hget]
        | some y => simp [hget, harith]

/-- An id's first index points at the id. -/
theorem idxOf?_some_getElem {id : Str} :
    ∀ (ids : List Str) (i : ℕ), idxOf? id ids = some i → ids[i]? = some id := by
  intro ids
  induction ids with
  | nil => intro i h; simp [idxOf?] at h
  | cons s rest ih =>
    intro i h
    by_cases hs : s = id
    · simp only [idxOf?, hs, if_true] at h
      injection h with h
      subst h
      simp [hs]
    · simp only [idxOf?, hs, if_false] at h
      cases hidx : idxOf? id rest with
      | none => rw [hidx] at h; simp at h
      | some j =>
        rw [hidx] at h
        injection h with h
        subst h
        simpa using ih j hidx

/-- On a duplicate-free list, holding an id at an index means the
first index is that index. -/
theorem idxOf?_of_getElem_nodup {id : Str} :
    ∀ (ids : List Str) (i : ℕ), ids.Nodup → ids[i]? = some id →
      idxOf? id ids = some i := by
  intro ids
  induction ids with
  | nil => intro i _ h; simp at h
  | cons s rest ih =>
    intro i hnd h
    cases i with
    | zero =>
      simp only [List.getElem?_cons_zero] at h
      injection h with h
      simp [idxOf?, h]
    | succ j =>
      simp only [List.getElem?_cons_succ] at h
      have hmem : id ∈ rest := by
        have := List.getElem?_mem h
        exact this
      have hs : s ≠ id := by
        intro hc
        exact (List.nodup_cons.mp hnd).1 (hc ▸ hmem)
      simp only [idxOf?, hs, if_false]
      rw [ih j (List.nodup_cons.mp hnd).2 h]
      rfl

/-- A found first index is in bounds. -/
theorem idxOf?_lt_length {id : Str} (ids : List Str) (i : ℕ)
    (h : idxOf? id ids = some i) : i < ids.length := by
  have hsome := idxOf?_some_getElem ids i h
  rcases List.getElem?_eq_some.mp hsome with ⟨hlt, _⟩
  exact hlt

/-- The rank map of the fusion stage behaves as positional lookup over
duplicate-free ids. -/
theorem pyDictFind_rankMap {α : Type} (key : α → Str) (xs : List α) (id : Str)
    (h : (xs.map key).Nodup) :
    pyDictFind (pyDictOfPairs (xs.enum.map (fun p => (key p.2, (p.1 + 1, p.2))))) id
      = (idxOf? id (xs.map key)).bind (fun i => xs[i]?.map (fun x => (i + 1, x))) := by
  have hkeys : ((xs.enum.map (fun p => (key p.2, (p.1 + 1, p.2)))).map Prod.fst).Nodup := by
    rw [show xs.enum = List.enumFrom 0 xs from rfl, keys_enumFrom_map]
    exact h
  rw [pyDictOfPairs_self _ hkeys]
  unfold pyDictFind
  rw [show xs.enum = List.enumFrom 0 xs from rfl, find?_enumFrom_map]
  cases hidx : idxOf? id (xs.map key) with
  | none => simp
  | some i =>
    cases hget : xs[i]? with
    | none => simp [hget]
    | some x => simp [hget, Nat.zero_add]

/-- `ftsRankMap` lookup as positional lookup. -/
theorem ftsRankMap_find (fts_results : List SearchResult) (id : Str)
    (h : (fts_results.map (fun x => x.event.id)).Nodup) :
    pyDictFind (ftsRankMap fts_results) id
      = (idxOf? id (fts_results.map (fun x => x.event.id))).bind
          (fun i => fts_results[i]?.map (fun x => (i + 1, x))) := by
  unfold ftsRankMap
  exact pyDictFind_rankMap (fun x => x.event.id) fts_results id h

/-- `vecRankMap` lookup as positional lookup. -/
theorem vecRankMap_find (vec_results : List VectorSearchResult) (id : Str)
    (h : (vec_results.map (fun x => x.event_id)).Nodup) :
    pyDictFind (vecRankMap vec_results) id
      = (idxOf? id (vec_results.map (fun x => x.event_id))).bind
          (fun i => vec_results[i]?.map (fun x => (i + 1, x))) := by
  unfold vecRankMap
  exact pyDictFind_rankMap (fun x => x.event_id) vec_results id h

/-- What one fusion iteration emits: the genuine 1-based ranks of the
id in each ranked list, an event carrying that id, and the RRF score
of exactly those ranks. -/
theorem fuseOne_spec (store : List Event) (fts_results : List SearchResult)
    (vec_results : List VectorSearchResult) (k wf wv : ℚ) (id : Str) (r : HybridResult)
    (hfts : (fts_results.map (fun x => x.event.id)).Nodup)
    (hvec : (vec_results.map (fun x => x.event_id)).Nodup)
    (h : fuseOne store (ftsRankMap fts_results) (vecRankMap vec_results) k wf wv id
        = some r) :
    r.event.id = id ∧
      r.fts_rank = rankOf (fts_results.map (fun x => x.event.id)) id ∧
      r.vec_rank = rankOf (vec_results.map (fun x => x.event_id)) id ∧
      r.rrf_score = _compute_rrf_score r.fts_rank r.vec_rank k wf wv := by
  simp only [fuseOne, ftsRankMap_find fts_results id hfts,
    vecRankMap_find vec_results id hvec] at h
  cases hif : idxOf? id (fts_results.map (fun x => x.event.id)) with
  | some i =>
    have hflen : i < fts_results.length := by
      have := idxOf?_lt_length _ _ hif
      simpa using this
    have hfget : fts_results[i]? = some fts_results[i] := List.getElem?_eq_getElem hflen
    have hfid : fts_results[i].event.id = id := by
      have hmap := idxOf?_some_getElem _ _ hif
      rw [List.getElem?_map, hfget] at hmap
      simpa using hmap
    cases hiv : idxOf? id (vec_results.map (fun x => x.event_id)) with
    | some j =>
      have hvlen : j < vec_results.length := by
        have := idxOf?_lt_length _ _ hiv
        simpa using this
      have hvget : vec_results[j]? = some vec_results[j] := List.getElem?_eq_getElem hvlen
      rw [hif, hiv] at h
      simp only [Option.some_bind, hfget, hvget, Option.map_some] at h
      injection h with h
      subst h
      refine ⟨hfid, ?_, ?_, rfl⟩
      · simp [rankOf, hif]
      · simp [rankOf, hiv]
    | none =>
      rw [hif, hiv] at h
      simp only [Option.some_bind, Option.none_bind, hfget, Option.map_some,
        Option.map_none] at h
      injection h with h
      subst h
      refine ⟨hfid, ?_, ?_, rfl⟩
      · simp [rankOf, hif]
      · simp [rankOf, hiv]
  | none =>
    cases hiv : idxOf? id (vec_results.map (fun x => x.event_id)) with
    | some j =>
      have hvlen : j < vec_results.length := by
        have := idxOf?_lt_length _ _ hiv
        simpa using this
      have hvget : vec_results[j]? = some vec_results[j] := List.getElem?_eq_getElem hvlen
      rw [hif, hiv] at h
      simp only [Option.some_bind, Option.none_bind, hvget, Option.map_some,
        Option.map_none] at h
      cases hload : _load_event store id with
      | none => rw [hload] at h; exact absurd h (by simp)
      | some ev =>
        have hevid : ev.id = id := by
          have := List.find?_some hload
          simpa using this
        rw [hload] at h
        injection h with h
        subst h
        refine ⟨hevid, ?_, ?_, rfl⟩
        · simp [rankOf, hif]
        · simp [rankOf, hiv]
    | none =>
      rw [hif, hiv] at h
      simp only [Option.none_bind, Option.map_none] at h
      cases hload : _load_event store id with
      | none => rw [hload] at h; exact absurd h (by simp)
      | some ev =>
        have hevid : ev.id = id := by
          have := List.find?_some hload
          simpa using this
        rw [hload] at h
        injection h with h
        subst h
        refine ⟨hevid, ?_, ?_, rfl⟩
        · simp [rankOf, hif]
        · simp [rankOf, hiv]

/-- Output of the Python stable descending sort is sorted weakly
descending in its key. -/
theorem sorted_sortByRatDesc {α : Type} (key : α → ℚ) (l : List α) :
    (sortByRatDesc key l).Sorted (fun a b => key b ≤ key a) := by
  haveI : IsTotal α (fun a b => key b ≤ key a) := ⟨fun a b => le_total (key b) (key a)⟩
  haveI : IsTrans α (fun a b => key b ≤ key a) :=
    ⟨fun a b c h1 h2 => le_trans h2 h1⟩
  exact List.sorted_insertionSort _ l

/-- A rank-enumerated emission whose scores are antitone in the rank
is sorted descending. -/
theorem sorted_enumFrom_filterMap {α : Type} (g : ℕ × α → Option HybridResult)
    (hmono : ∀ i j x y a b, i ≤ j → g (i, x) = some a → g (j, y) = some b →
      b.rrf_score ≤ a.rrf_score) :
    ∀ (xs : List α) (n : ℕ),
      ((List.enumFrom n xs).filterMap g).Sorted (fun a b => b.rrf_score ≤ a.rrf_score) := by
  intro xs
  induction xs with
  | nil => intro n; simp [List.Sorted]
  | cons x rest ih =>
    intro n
    simp only [List.enumFrom_cons, List.filterMap_cons]
    cases hg : g (n, x) with
    | none => exact ih (n + 1)
    | some a =>
      refine List.pairwise_cons.mpr ⟨?_, ih (n + 1)⟩
      intro b hb
      obtain ⟨⟨j, y⟩, hjy, hgb⟩ := List.mem_filterMap.mp hb
      have hj := (List.mem_enumFrom hjy).1
      exact hmono n j x y a b (by omega) hg hgb

/-- With a non-negative weight and shift, reciprocal rank scores are
antitone in the rank. -/
theorem rrf_score_antitone {k w : ℚ} (hk : 0 ≤ k) (hw : 0 ≤ w) {i j : ℕ}
    (hij : i ≤ j) :
    w / (k + ((j + 1 : ℕ) : ℚ)) ≤ w / (k + ((i + 1 : ℕ) : ℚ)) := by
  have hpos : (0 : ℚ) < k + ((i + 1 : ℕ) : ℚ) := by
    have : (0 : ℚ) < ((i + 1 : ℕ) : ℚ) := by exact_mod_cast Nat.succ_pos i
    linarith
  have hle : k + ((i + 1 : ℕ) : ℚ) ≤ k + ((j + 1 : ℕ) : ℚ) := by
    have : ((i + 1 : ℕ) : ℚ) ≤ ((j + 1 : ℕ) : ℚ) := by exact_mod_cast Nat.succ_le_succ hij
    linarith
  exact div_le_div_of_nonneg_left hw hpos hle

/-- On a duplicate-free ranked list, the element at an enumerated
position has exactly that 1-based rank. -/
theorem rankOf_of_mem_enum {α : Type} (key : α → Str) {xs : List α} {i : ℕ} {x : α}
    (hnd : (xs.map key).Nodup) (hmem : (i, x) ∈ xs.enum) :
    rankOf (xs.map key) (key x) = some (i + 1) := by
  obtain ⟨hlt, hx⟩ := List.mem_enum hmem
  have hget : (xs.map key)[i]? = some (key x) := by
    rw [List.getElem?_map, List.getElem?_eq_getElem hlt]
    simp [hx]
  rw [rankOf, idxOf?_of_getElem_nodup (xs.map key) i hnd hget]
  rfl

/-- Properties of the keyword-only degradation path. -/
theorem fts_only_spec (fts_results : List SearchResult) (k wf : ℚ) (limit : ℕ)
    (hfts : (fts_results.map (fun x => x.event.id)).Nodup)
    (hk : 0 ≤ k) (hwf : 0 ≤ wf) :
    (∀ r ∈ _fts_only_results fts_results k wf limit,
        r.fts_rank = rankOf (fts_results.map (fun x => x.event.id)) r.event.id ∧
          r.vec_rank = none ∧
          r.rrf_score = _compute_rrf_score r.fts_rank r.vec_rank k wf 0) ∧
      (_fts_only_results fts_results k wf limit).Sorted
        (fun a b => b.rrf_score ≤ a.rrf_score) ∧
      (_fts_only_results fts_results k wf limit).length ≤ limit := by
  refine ⟨?_, ?_, ?_⟩
  · intro r hr
    have hr2 := List.mem_of_mem_take hr
    obtain ⟨⟨i, x⟩, hmem, heq⟩ := List.mem_map.mp hr2
    subst heq
    have hrank := rankOf_of_mem_enum (fun s => s.event.id) hfts hmem
    exact ⟨hrank.symm, rfl, by simp [_compute_rrf_score]⟩
  · apply List.Pairwise.sublist (List.take_sublist _ _)
    rw [show fts_results.enum = List.enumFrom 0 fts_results from rfl]
    rw [← List.filterMap_eq_map]
    apply sorted_enumFrom_filterMap
    intro i j x y a b hij ha hb
    simp only [Function.comp, Option.some.injEq] at ha hb
    subst ha
    subst hb
    exact rrf_score_antitone hk hwf hij
  · simp [_fts_only_results]

/-- Properties of the vector-only degradation path. -/
theorem vec_only_spec (store : List Event) (vec_results : List VectorSearchResult)
    (k wv : ℚ) (limit : ℕ)
    (hvec : (vec_results.map (fun x => x.event_id)).Nodup)
    (hk : 0 ≤ k) (hwv : 0 ≤ wv) :
    (∀ r ∈ _vec_only_results store vec_results k wv limit,
        r.fts_rank = none ∧
          r.vec_rank = rankOf (vec_results.map (fun x => x.event_id)) r.event.id ∧
          r.rrf_score = _compute_rrf_score r.fts_rank r.vec_rank k 0 wv) ∧
      (_vec_only_results store vec_results k wv limit).Sorted
        (fun a b => b.rrf_score ≤ a.rrf_score) ∧
      (_vec_only_results store vec_results k wv limit).length ≤ limit := by
  refine ⟨?_, ?_, ?_⟩
  · intro r hr
    have hr2 := List.mem_of_mem_take hr
    obtain ⟨⟨i, v⟩, hmem, hg⟩ := List.mem_filterMap.mp hr2
    cases hload : _load_event store v.event_id with
    | none => rw [hload] at hg; exact absurd hg (by simp)
    | some ev =>
      rw [hload] at hg
      injection hg with hg
      subst hg
      have hevid : ev.id = v.event_id := by
        have := List.find?_some hload
        simpa using this
      have hrank := rankOf_of_mem_enum (fun s => s.event_id) hvec hmem
      refine ⟨rfl, ?_, by simp [_compute_rrf_score]⟩
      simp only [hevid]
      exact hrank.symm
  · apply List.Pairwise.sublist (List.take_sublist _ _)
    rw [show vec_results.enum = List.enumFrom 0 vec_results from rfl]
    apply sorted_enumFrom_filterMap
    intro i j x y a b hij ha hb
    cases hlx : _load_event store x.event_id with
    | none => rw [hlx] at ha; exact absurd ha (by simp)
    | some evx =>
      cases hly : _load_event store y.event_id with
      | none => rw [hly] at hb; exact absurd hb (by simp)
      | some evy =>
        rw [hlx] at ha
        rw [hly] at hb
        injection ha with ha
        injection hb with hb
        subst ha
        subst hb
        exact rrf_score_antitone hk hwv hij
  · simp [_vec_only_results]

/-- Properties of the fusion path. -/
theorem fusion_spec (store : List Event) (fts_results : List SearchResult)
    (vec_results : List VectorSearchResult) (limit : ℕ) (k wf wv : ℚ)
    (hfts : (fts_results.map (fun x => x.event.id)).Nodup)
    (hvec : (vec_results.map (fun x => x.event_id)).Nodup) :
    (∀ r ∈ (sortByRatDesc (fun r => r.rrf_score)
        ((allEventIds (ftsRankMap fts_results) (vecRankMap vec_results)).filterMap
          (fuseOne store (ftsRankMap fts_results) (vecRankMap vec_results) k wf wv))).take
            limit,
        r.fts_rank = rankOf (fts_results.map (fun x => x.event.id)) r.event.id ∧
          r.vec_rank = rankOf (vec_results.map (fun x => x.event_id)) r.event.id ∧
          r.rrf_score = _compute_rrf_score r.fts_rank r.vec_rank k wf wv) ∧
      ((sortByRatDesc (fun r => r.rrf_score)
        ((allEventIds (ftsRankMap fts_results) (vecRankMap vec_results)).filterMap
          (fuseOne store (ftsRankMap fts_results) (vecRankMap vec_results) k wf wv))).take
            limit).Sorted (fun a b => b.rrf_score ≤ a.rrf_score) ∧
      ((sortByRatDesc (fun r => r.rrf_score)
        ((allEventIds (ftsRankMap fts_results) (vecRankMap vec_results)).filterMap
          (fuseOne store (ftsRankMap fts_results) (vecRankMap vec_results) k wf wv))).take
            limit).length ≤ limit := by
  refine ⟨?_, ?_, ?_⟩
  · intro r hr
    have hr2 := List.mem_of_mem_take hr
    rw [sortByRatDesc, List.mem_insertionSort] at hr2
    obtain ⟨id, _, hfo⟩ := List.mem_filterMap.mp hr2
    obtain ⟨hid, hf, hv, hs⟩ :=
      fuseOne_spec store fts_results vec_results k wf wv id r hfts hvec hfo
    rw [← hid] at hf hv
    exact ⟨hf, hv, hs⟩
  · exact List.Pairwise.sublist (List.take_sublist _ _)
      (sorted_sortByRatDesc (fun r : HybridResult => r.rrf_score) _)
  · simp

/-- C8: given the ranked keyword and vector result lists (each with
distinct document ids), a non-negative `k` and non-negative weights,
`hybrid_search` assigns every returned document the score
`w_kw/(k+rank_kw) + w_vec/(k+rank_vec)` where its genuine 1-based rank
in each input list is used and a missing rank contributes zero,
returns the results sorted by that score descending, and returns at
most `limit` results. -/
theorem hybrid_search_rrf (store : List Event) (fts_results : List SearchResult)
    (vec_results : List VectorSearchResult) (limit : ℕ) (k wf wv : ℚ)
    (hfts : (fts_results.map (fun x => x.event.id)).Nodup)
    (hvec : (vec_results.map (fun x => x.event_id)).Nodup)
    (hk : 0 ≤ k) (hwf : 0 ≤ wf) (hwv : 0 ≤ wv) :
    (∀ r ∈ hybrid_search store fts_results vec_results limit k wf wv,
        r.fts_rank = rankOf (fts_results.map (fun x => x.event.id)) r.event.id ∧
          r.vec_rank = rankOf (vec_results.map (fun x => x.event_id)) r.event.id ∧
          r.rrf_score = _compute_rrf_score r.fts_rank r.vec_rank k wf wv) ∧
      (hybrid_search store fts_results vec_results limit k wf wv).Sorted
        (fun a b => b.rrf_score ≤ a.rrf_score) ∧
      (hybrid_search store fts_results vec_results limit k wf wv).length ≤ limit := by
  by_cases h1 : (vec_results.isEmpty && !fts_results.isEmpty) = true
  · rw [Bool.and_eq_true] at h1
    have hvnil : vec_results = [] := List.isEmpty_iff.mp h1.1
    subst hvnil
    have hred : hybrid_search store fts_results [] limit k wf wv
        = _fts_only_results fts_results k wf limit := by
      simp [hybrid_search, h1]
    rw [hred]
    obtain ⟨hmemb, hsort, hlen⟩ := fts_only_spec fts_results k wf limit hfts hk hwf
    refine ⟨?_, hsort, hlen⟩
    intro r hr
    obtain ⟨ha, hb, hc⟩ := hmemb r hr
    refine ⟨ha, ?_, ?_⟩
    · rw [hb]; simp [rankOf, idxOf?]
    · rw [hc, hb]
      simp [_compute_rrf_score]
  · by_cases h2 : (fts_results.isEmpty && !vec_results.isEmpty) = true
    · rw [Bool.and_eq_true] at h2
      have hfnil : fts_results = [] := List.isEmpty_iff.mp h2.1
      subst hfnil
      have hred : hybrid_search store [] vec_results limit k wf wv
          = _vec_only_results store vec_results k wv limit := by
        simp [hybrid_search, h1, h2]
      rw [hred]
      obtain ⟨hmemb, hsort, hlen⟩ := vec_only_spec store vec_results k wv limit hvec hk hwv
      refine ⟨?_, hsort, hlen⟩
      intro r hr
      obtain ⟨ha, hb, hc⟩ := hmemb r hr
      refine ⟨?_, hb, ?_⟩
      · rw [ha]; simp [rankOf, idxOf?]
      · rw [hc, ha]
        simp [_compute_rrf_score]
    · by_cases h3 : (fts_results.isEmpty && vec_results.isEmpty) = true
      · have hred : hybrid_search store fts_results vec_results limit k wf wv = [] := by
          simp [hybrid_search, h1, h2, h3]
        rw [hred]
        exact ⟨fun r hr => absurd hr (by simp), by simp [List.Sorted], by simp⟩
      · have hred : hybrid_search store fts_results vec_results limit k wf wv
            = (sortByRatDesc (fun r => r.rrf_score)
                ((allEventIds (ftsRankMap fts_results) (vecRankMap vec_results)).filterMap
                  (fuseOne store (ftsRankMap fts_results) (vecRankMap vec_results)
                    k wf wv))).take limit := by
          simp [hybrid_search, h1, h2, h3]
        rw [hred]
        exact fusion_spec store fts_results vec_results limit k wf wv hfts hvec

/-- Witness for the C8 theorem on concrete single-element ranked
lists, `k = 60` and unit weights. -/
theorem hybrid_search_rrf_witness :
    (([⟨evDecision, 1, []⟩] : List SearchResult).map (fun x => x.event.id)).Nodup ∧
      (([⟨evKnowledge.id, 1, 1⟩] : List VectorSearchResult).map
        (fun x => x.event_id)).Nodup ∧
      (hybrid_search [evKnowledge] [⟨evDecision, 1, []⟩] [⟨evKnowledge.id, 1, 1⟩]
          5 60 1 1).length ≤ 5 :=
  ⟨by decide, by decide,
    (hybrid_search_rrf [evKnowledge] [⟨evDecision, 1, []⟩] [⟨evKnowledge.id, 1, 1⟩]
      5 60 1 1 (by decide) (by decide) (by decide) zero_le_one zero_le_one).2.2⟩

end Cortex
